import Mathlib

/-!
# Block-packed inverted lists (`faiss/invlists/BlockInvertedLists.cpp`)

A shallow embedding of `faiss::BlockInvertedLists` and theorems about it.

Conventions of the embedding

* `size_t` values are natural numbers; every `size_t` addition, subtraction and
  multiplication of the source is reduced modulo `2 ^ 64` (`wadd`, `wsub1`, `wmul`).
* A `std::vector<idx_t>` is a `List Int`, a byte buffer is a `List Nat`.
* A caller's pointer is the list of the elements that can be read through it;
  `p + k` is `List.drop k`.
* A call has one of three outcomes: it returns (`Outcome.ok`, with the state
  after the call), it throws a `FaissException` (`Outcome.throws`, with the
  state at the point of the throw), or it leaves defined behaviour
  (`Outcome.undefined`: an access outside a buffer, a division by zero, a call
  through the null packer).
-/

namespace faiss

/-! ## Machine arithmetic -/

/-- Addition of two `size_t` values. -/
def wadd (a b : Nat) : Nat := (a + b) % 2 ^ 64

/-- The `size_t` computation `a - 1`. -/
def wsub1 (a : Nat) : Nat := (a + (2 ^ 64 - 1)) % 2 ^ 64

/-- Multiplication of two `size_t` values. -/
def wmul (a b : Nat) : Nat := (a * b) % 2 ^ 64

/-! ## Buffers -/

/-- Resizing of a buffer to `n` elements: a prefix is kept, and the element
that appears at index `j` is `fill j`. -/
def vresize {α : Type} (xs : List α) (n : Nat) (fill : Nat → α) : List α :=
  xs.take n ++ (List.range (n - xs.length)).map (fun k => fill (xs.length + k))

/-- The call `memcpy(&dst[off], src, len)`, counted in elements. It is defined
when the destination range lies in `dst` and `src` holds `len` elements. -/
def memcpy {α : Type} (dst : List α) (off : Nat) (src : List α) (len : Nat) :
    Option (List α) :=
  if off + len ≤ dst.length ∧ len ≤ src.length then
    some (dst.take off ++ src.take len ++ dst.drop (off + len))
  else none

/-- The call `memset(dst + off, v, len)` on a buffer that holds the range. -/
def memset {α : Type} (dst : List α) (off : Nat) (v : α) (len : Nat) : List α :=
  dst.take off ++ List.replicate len v ++ dst.drop (off + len)

/-! ## The code packer -/

/-- The interface `CodePacker` (declared in `faiss/impl/CodePacker.h`), taken as
a parameter. `pack_1 flat offset block` is the content of the buffer `block`
after the call, `unpack_1 block offset` the content of the output buffer after
the call. Both calls write through a pointer, so the written buffer keeps its
size (`pack_1_size`, `unpack_1_size`). The two functions are total; a method of
the store that calls them for a slot outside `codes[list_no]` (`SlotIn`) leaves
defined behaviour. -/
structure CodePacker where
  code_size : Nat
  nvec : Nat
  block_size : Nat
  pack_1 : List Nat → Nat → List Nat → List Nat
  unpack_1 : List Nat → Nat → List Nat
  pack_1_size : ∀ flat offset block, (pack_1 flat offset block).length = block.length
  unpack_1_size : ∀ block offset, (unpack_1 block offset).length = code_size

/-- Slot `i` lies in a buffer of `len` bytes: the block of the slot is inside. -/
def CodePacker.SlotIn (pk : CodePacker) (i len : Nat) : Prop :=
  (i / pk.nvec + 1) * pk.block_size ≤ len

instance (pk : CodePacker) (i len : Nat) : Decidable (pk.SlotIn i len) := by
  unfold CodePacker.SlotIn
  infer_instance

/-- Round-trip law: unpacking a slot just packed gives back the `code_size`
bytes that were packed, whatever the block held before. -/
def CodePacker.RoundTrip (pk : CodePacker) : Prop :=
  ∀ (flat : List Nat) (i : Nat) (block : List Nat),
    pk.code_size ≤ flat.length → pk.SlotIn i block.length →
    pk.unpack_1 (pk.pack_1 flat i block) i = flat.take pk.code_size

/-- Slot non-interference law: packing slot `i` does not change what slot
`j ≠ i` unpacks to. -/
def CodePacker.NonInterference (pk : CodePacker) : Prop :=
  ∀ (flat : List Nat) (i j : Nat) (block : List Nat),
    i ≠ j → pk.code_size ≤ flat.length →
    pk.SlotIn i block.length → pk.SlotIn j block.length →
    pk.unpack_1 (pk.pack_1 flat i block) j = pk.unpack_1 block j

/-- The relation `slot` is a slot layout of the packer, `slot j k` saying that
byte `k` of a buffer belongs to slot `j`: `pack_1` at a slot changes no byte
outside that slot, and no byte belongs to two slots. -/
def CodePacker.Layout (pk : CodePacker) (slot : Nat → Nat → Prop) : Prop :=
  (∀ (flat : List Nat) (i : Nat) (block : List Nat) (k : Nat),
    ¬ slot i k → (pk.pack_1 flat i block)[k]? = block[k]?) ∧
  (∀ (i j k : Nat), slot i k → slot j k → i = j)

/-! ## The store -/

/-- The fields of `faiss::BlockInvertedLists`: `nlist` and `code_size` come from
the base class `InvertedLists`; `allocated_codes` is the set of the addresses
handed out by `get_single_code`. -/
structure BlockInvertedLists where
  nlist : Nat
  code_size : Nat
  n_per_block : Nat
  block_size : Nat
  packer : Option CodePacker
  ids : List (List Int)
  codes : List (List Nat)
  allocated_codes : List Nat

/-- Outcome of a call that returns an `α`. -/
inductive Outcome (α : Type) where
  | ok : BlockInvertedLists → α → Outcome α
  | throws : BlockInvertedLists → Outcome α
  | undefined : Outcome α

/-- The store that a call ends with, when it returns or throws. -/
def Outcome.state? {α : Type} : Outcome α → Option BlockInvertedLists
  | .ok s _ => some s
  | .throws s => some s
  | .undefined => none

namespace BlockInvertedLists

/-- The constructor `BlockInvertedLists(nlist, n_per_block, block_size)`. The
constant `InvertedLists::INVALID_CODE_SIZE` is declared outside the sources at
hand and is a parameter. -/
def new (INVALID_CODE_SIZE nlist n_per_block block_size : Nat) : BlockInvertedLists :=
  { nlist := nlist
    code_size := INVALID_CODE_SIZE
    n_per_block := n_per_block
    block_size := block_size
    packer := none
    ids := List.replicate nlist []
    codes := List.replicate nlist []
    allocated_codes := [] }

/-- The constructor `BlockInvertedLists(nlist, packer)`. -/
def newWithPacker (INVALID_CODE_SIZE nlist : Nat) (packer : CodePacker) :
    BlockInvertedLists :=
  { nlist := nlist
    code_size := INVALID_CODE_SIZE
    n_per_block := packer.nvec
    block_size := packer.block_size
    packer := some packer
    ids := List.replicate nlist []
    codes := List.replicate nlist []
    allocated_codes := [] }

/-- The loop of the second branch of `add_entries`: entry `i` of the caller's
buffer is unpacked and packed again at slot `i + o`. -/
def add_entries_loop (pk : CodePacker) (code : List Nat) (o n_entry : Nat)
    (buf : List Nat) : List Nat :=
  (List.range n_entry).foldl
    (fun b i => pk.pack_1 (pk.unpack_1 code i) (wadd i o) b) buf

/-- The method `add_entries`. The type of `codes[list_no]` is declared outside
the sources at hand, so what its `resize` puts in the bytes that appear is a
parameter: `junk j` is the byte found at index `j` when `codes[list_no].resize`
makes that index appear. The loop of the second branch writes slot `i + o` of
`codes[list_no]` for every `i < n_entry`; the buffer keeps its size during the
loop, so the loop stays in the buffer exactly when each of these slots lies in
it, and leaves defined behaviour otherwise. -/
def add_entries (s : BlockInvertedLists) (junk : Nat → Nat)
    (list_no n_entry : Nat) (ids_in : List Int) (code : List Nat) : Outcome Nat :=
  if n_entry = 0 then .ok s 0
  else if ¬ list_no < s.nlist then .throws s
  else
    match s.ids[list_no]?, s.codes[list_no]? with
    | some idl, some cdl =>
      let o := idl.length
      let idl1 := vresize idl (wadd o n_entry) (fun _ => 0)
      match memcpy idl1 o ids_in n_entry with
      | none => .undefined
      | some idl2 =>
        if s.n_per_block = 0 then .undefined
        else
          let n_block := wsub1 (wadd (wadd o n_entry) s.n_per_block) / s.n_per_block
          let cdl1 := vresize cdl (wmul n_block s.block_size) junk
          if s.block_size = 0 then .undefined
          else if o % s.block_size = 0 then
            match memcpy cdl1 (wmul o s.code_size) code (wmul n_block s.block_size) with
            | none => .undefined
            | some cdl2 =>
              .ok { s with ids := s.ids.set list_no idl2,
                           codes := s.codes.set list_no cdl2 } o
          else
            match s.packer with
            | none =>
              .throws { s with ids := s.ids.set list_no idl2,
                               codes := s.codes.set list_no cdl1 }
            | some pk =>
              if ∀ i, i < n_entry → pk.SlotIn (wadd i o) cdl1.length then
                .ok { s with ids := s.ids.set list_no idl2,
                             codes := s.codes.set list_no
                               (add_entries_loop pk code o n_entry cdl1) } o
              else .undefined
    | _, _ => .undefined

/-- The method `list_size`. The result is `none` when the call has no value:
the assertion `list_no < nlist` fails (the program stops, or, compiled with
`NDEBUG`, indexes `ids` outside its range), or `ids` has no such element. -/
def list_size (s : BlockInvertedLists) (list_no : Nat) : Option Nat :=
  if list_no < s.nlist then (s.ids[list_no]?).map List.length else none

/-- The method `resize`; `junk` as in `add_entries`. -/
def resize (s : BlockInvertedLists) (junk : Nat → Nat) (list_no new_size : Nat) :
    Outcome Unit :=
  match s.ids[list_no]?, s.codes[list_no]? with
  | some idl, some cdl =>
    let idl1 := vresize idl new_size (fun _ => 0)
    let prev_nbytes := cdl.length
    if s.n_per_block = 0 then .undefined
    else
      let n_block := wsub1 (wadd new_size s.n_per_block) / s.n_per_block
      let new_nbytes := wmul n_block s.block_size
      let cdl1 := vresize cdl new_nbytes junk
      let cdl2 :=
        if prev_nbytes < new_nbytes then
          memset cdl1 prev_nbytes 0 (new_nbytes - prev_nbytes)
        else cdl1
      .ok { s with ids := s.ids.set list_no idl1,
                   codes := s.codes.set list_no cdl2 } ()
  | _, _ => .undefined

/-- One turn of the loop of `update_entries` on the id vector and the byte
buffer of the list; `none` when the turn leaves defined behaviour: the id
index is outside `ids[list_no]`, the caller's ids are exhausted, the packer is
null, or the slot written by `pack_1` is outside `codes[list_no]`. -/
def update_entries_step (packer : Option CodePacker) (offset : Nat)
    (ids_in : List Int) (code : List Nat)
    (st : Option (List Int × List Nat)) (i : Nat) : Option (List Int × List Nat) :=
  match st with
  | none => none
  | some (idl, cdl) =>
    if wadd offset i < idl.length then
      match ids_in[i]? with
      | none => none
      | some v =>
        match packer with
        | none => none
        | some pk =>
          if pk.SlotIn (wadd offset i) cdl.length then
            some (idl.set (wadd offset i) v,
                  pk.pack_1 (code.drop (wmul i pk.code_size)) (wadd offset i) cdl)
          else none
    else none

/-- The method `update_entries`. -/
def update_entries (s : BlockInvertedLists) (list_no offset n_entry : Nat)
    (ids_in : List Int) (code : List Nat) : Outcome Unit :=
  if ¬ list_no < s.nlist then .throws s
  else
    match s.ids[list_no]?, s.codes[list_no]? with
    | some idl, some cdl =>
      if ¬ wadd offset n_entry ≤ idl.length then .throws s
      else
        match (List.range n_entry).foldl
            (update_entries_step s.packer offset ids_in code) (some (idl, cdl)) with
        | none => .undefined
        | some (idl1, cdl1) =>
          .ok { s with ids := s.ids.set list_no idl1,
                       codes := s.codes.set list_no cdl1 } ()
    | _, _ => .undefined

/-- The method `get_single_code`. `addr` is the address that `new uint8_t[...]`
returns; the result is that address with the content of the buffer. The
source tests `offset` against `ids[list_no]` only and then reads slot `offset`
of `codes[list_no]` through the packer: a slot outside that buffer is a read
outside it. -/
def get_single_code (s : BlockInvertedLists) (addr : Nat) (list_no offset : Nat) :
    Outcome (Nat × List Nat) :=
  if ¬ list_no < s.nlist then .throws s
  else
    match s.ids[list_no]?, s.codes[list_no]? with
    | some idl, some cdl =>
      if ¬ offset < idl.length then .throws s
      else
        match s.packer with
        | none => .undefined
        | some pk =>
          if pk.SlotIn offset cdl.length then
            .ok { s with allocated_codes := s.allocated_codes.insert addr }
              (addr, pk.unpack_1 cdl offset)
          else .undefined
    | _, _ => .undefined

/-- The method `release_codes`; `codes` is the address passed. The value of a
returning call tells whether `delete[] codes` was executed. -/
def release_codes (s : BlockInvertedLists) (list_no : Nat) (codes : Nat) : Outcome Bool :=
  if ¬ list_no < s.nlist then .throws s
  else if codes ∈ s.allocated_codes then
    .ok { s with allocated_codes := s.allocated_codes.filter (fun a => a ≠ codes) } true
  else .ok s false

/-- How a call of a read accessor ends: with a value, stopped by a failed
`assert`, or outside defined behaviour. -/
inductive Access (α : Type) where
  | value : α → Access α
  | assert_failed : Access α
  | undefined : Access α
  deriving DecidableEq

/-- The body shared by the read accessors: `assert(list_no < nlist)` and then
the read of element `list_no` of a vector. With `NDEBUG` the macro `assert`
expands to nothing. -/
def asserted {α : Type} (NDEBUG : Bool) (s : BlockInvertedLists) (list_no : Nat)
    (element : Option α) : Access α :=
  if NDEBUG = false ∧ ¬ list_no < s.nlist then .assert_failed
  else
    match element with
    | some a => .value a
    | none => .undefined

/-- The method `list_size` with the two readings of `assert` set apart;
`list_size` above is its value when the list number is in `[0, nlist)`. -/
def list_size_asserted (s : BlockInvertedLists) (NDEBUG : Bool) (list_no : Nat) :
    Access Nat :=
  asserted NDEBUG s list_no ((s.ids[list_no]?).map List.length)

/-- The method `get_codes`: the bytes that can be read through the pointer
returned. -/
def get_codes (s : BlockInvertedLists) (NDEBUG : Bool) (list_no : Nat) :
    Access (List Nat) :=
  asserted NDEBUG s list_no s.codes[list_no]?

/-- The method `get_ids`: the ids that can be read through the pointer returned. -/
def get_ids (s : BlockInvertedLists) (NDEBUG : Bool) (list_no : Nat) :
    Access (List Int) :=
  asserted NDEBUG s list_no s.ids[list_no]?

/-! ## Properties of a store and example inputs -/

/-- The size invariant of list `p`: the byte buffer holds exactly the blocks
needed for the ids, `len(codes[p]) = ceil(len(ids[p]) / n_per_block) * block_size`. -/
def SizeInv (s : BlockInvertedLists) (p : Nat) : Prop :=
  match s.ids[p]?, s.codes[p]? with
  | some idl, some cdl =>
    cdl.length = (idl.length + s.n_per_block - 1) / s.n_per_block * s.block_size
  | _, _ => False

instance (s : BlockInvertedLists) (p : Nat) : Decidable (SizeInv s p) := by
  unfold SizeInv
  split <;> infer_instance

/-- The `size_t` computation of the byte length of list `p` does not wrap
around: `len(ids[p]) + n_per_block ≤ 2 ^ 64` and the byte length is below `2 ^ 64`. -/
def NoWrap (s : BlockInvertedLists) (p : Nat) : Prop :=
  match s.ids[p]? with
  | some idl =>
    idl.length + s.n_per_block ≤ 2 ^ 64 ∧
    (idl.length + s.n_per_block - 1) / s.n_per_block * s.block_size < 2 ^ 64
  | none => False

instance (s : BlockInvertedLists) (p : Nat) : Decidable (NoWrap s p) := by
  unfold NoWrap
  split <;> infer_instance

/-- The size relation as the source computes it, in `size_t` arithmetic. -/
def WrapSizeInv (s : BlockInvertedLists) : Prop :=
  s.ids.length = s.nlist ∧ s.codes.length = s.nlist ∧
  ∀ (p : Nat) (idl : List Int) (cdl : List Nat),
    s.ids[p]? = some idl → s.codes[p]? = some cdl →
    cdl.length
      = wmul (wsub1 (wadd idl.length s.n_per_block) / s.n_per_block) s.block_size

/-- A store as one of the two constructors with arguments leaves it. -/
inductive Fresh : BlockInvertedLists → Prop where
  | new (c nlist n_per_block block_size : Nat) :
      Fresh (BlockInvertedLists.new c nlist n_per_block block_size)
  | newWithPacker (c nlist : Nat) (pk : CodePacker) :
      Fresh (BlockInvertedLists.newWithPacker c nlist pk)

/-- The stores obtained from `s0` by calls of `add_entries`, `update_entries`
and `resize` that return. -/
inductive Reachable (s0 : BlockInvertedLists) : BlockInvertedLists → Prop where
  | init : Reachable s0 s0
  | add_entries {s s' : BlockInvertedLists} {junk : Nat → Nat} {list_no n_entry r : Nat}
      {ids_in : List Int} {code : List Nat} :
      Reachable s0 s → s.add_entries junk list_no n_entry ids_in code = .ok s' r →
      Reachable s0 s'
  | update_entries {s s' : BlockInvertedLists} {list_no offset n_entry : Nat}
      {ids_in : List Int} {code : List Nat} :
      Reachable s0 s → s.update_entries list_no offset n_entry ids_in code = .ok s' () →
      Reachable s0 s'
  | resize {s s' : BlockInvertedLists} {junk : Nat → Nat} {list_no new_size : Nat} :
      Reachable s0 s → s.resize junk list_no new_size = .ok s' () → Reachable s0 s'

/-- Zero padding of list `p` under the slot layout `slot`: every byte of
`codes[p]` that belongs to a slot at a logical position `≥ len(ids[p])` is zero. -/
def ZeroPadded (slot : Nat → Nat → Prop) (s : BlockInvertedLists) (p : Nat) : Prop :=
  ∀ (idl : List Int) (cdl : List Nat), s.ids[p]? = some idl → s.codes[p]? = some cdl →
    ∀ (j k : Nat), idl.length ≤ j → slot j k → k < cdl.length → cdl[k]? = some 0

/-- The stores obtained from `s0` by calls that return of `update_entries`, of
`resize` to a size not below the size of the list, and of `add_entries` that,
on the copy branch (previous size a multiple of `block_size`), is given blocks
whose bytes in the slots past the new end of the list are zero and, on the
per-entry branch, does not enlarge `codes[list_no]`. -/
inductive PadReachable (slot : Nat → Nat → Prop) (s0 : BlockInvertedLists) :
    BlockInvertedLists → Prop where
  | init : PadReachable slot s0 s0
  | update_entries {s s' : BlockInvertedLists} {list_no offset n_entry : Nat}
      {ids_in : List Int} {code : List Nat} :
      PadReachable slot s0 s →
      s.update_entries list_no offset n_entry ids_in code = .ok s' () →
      PadReachable slot s0 s'
  | resize {s s' : BlockInvertedLists} {junk : Nat → Nat} {list_no new_size : Nat} :
      PadReachable slot s0 s →
      (∀ idl, s.ids[list_no]? = some idl → idl.length ≤ new_size) →
      s.resize junk list_no new_size = .ok s' () → PadReachable slot s0 s'
  | add_entries {s s' : BlockInvertedLists} {junk : Nat → Nat} {list_no n_entry r : Nat}
      {ids_in : List Int} {code : List Nat} :
      PadReachable slot s0 s →
      (∀ idl, s.ids[list_no]? = some idl → idl.length % s.block_size = 0 →
        ∀ (j k : Nat), idl.length + n_entry ≤ j → slot j k → k < code.length →
          code[k]? = some 0) →
      (∀ idl cdl cdl1, s.ids[list_no]? = some idl → idl.length % s.block_size ≠ 0 →
        s.codes[list_no]? = some cdl → s'.codes[list_no]? = some cdl1 →
        cdl1.length ≤ cdl.length) →
      s.add_entries junk list_no n_entry ids_in code = .ok s' r →
      PadReachable slot s0 s'

end BlockInvertedLists

/-! ## Serialisation

The macros `WRITE1`, `WRITEVECTOR`, `READ1`, `READVECTOR` and the function
`fourcc` are declared in `faiss/impl/io_macros.h` and `faiss/impl/io.h`, outside
the sources at hand. An `IOWriter` is the list of the bytes written so far (a
write appends and does not fail); an `IOReader` is the list of the bytes still
to be read, and a read that finds fewer bytes than it asks for throws (`none`). -/

/-- Modelled from the spec: the fixed-width integers of the binary format
(`u32`, `u64`), absent with `io_macros.h`. An object is written as its bytes in
memory; the byte order of the machine is taken to be little-endian.
`le_bytes w x` is the `w` low bytes of `x`, lowest first. -/
def le_bytes : Nat → Nat → List Nat
  | 0, _ => []
  | w + 1, x => x % 256 :: le_bytes w (x / 256)

/-- Modelled from the spec: the value of a fixed-width integer given by its
bytes, lowest first (inverse of `le_bytes`). -/
def le_value : List Nat → Nat
  | [] => 0
  | b :: bs => b + 256 * le_value bs

/-- Modelled from the spec: `fourcc` (absent with `io.h`), the `u32` whose bytes
in the stream are the four characters of the format tag, in order. -/
def fourcc (sx : List Nat) : Nat := le_value (sx.take 4)

/-- Modelled from the spec: the 64 bits of an `idx_t`, written as a `u64`
(two's complement). -/
def idx_bits (z : Int) : Nat := (z % 2 ^ 64).toNat

/-- Modelled from the spec: the `idx_t` with the given 64 bits. -/
def idx_of_bits (v : Nat) : Int := if v < 2 ^ 63 then (v : Int) else (v : Int) - 2 ^ 64

/-- Modelled from the spec: the bytes of an array of `idx_t`, 8 per element. -/
def idx_bytes : List Int → List Nat
  | [] => []
  | z :: zs => le_bytes 8 (idx_bits z) ++ idx_bytes zs

/-- Modelled from the spec: the macro `WRITE1(x)` for an unsigned `x` of `width`
bytes. -/
def WRITE1 (width : Nat) (f : List Nat) (x : Nat) : List Nat := f ++ le_bytes width x

/-- Modelled from the spec: the macro `WRITEVECTOR(vec)` on a vector of `idx_t`:
the `u64` count, then the elements. -/
def WRITEVECTOR_idx (f : List Nat) (vec : List Int) : List Nat :=
  WRITE1 8 f vec.length ++ idx_bytes vec

/-- Modelled from the spec: the macro `WRITEVECTOR(vec)` on a byte buffer: the
`u64` length, then the bytes. -/
def WRITEVECTOR_u8 (f : List Nat) (vec : List Nat) : List Nat :=
  WRITE1 8 f vec.length ++ vec

/-- Modelled from the spec: the macro `READ1(x)` for an unsigned `x` of `width`
bytes: the value and the rest of the stream. -/
def READ1 (width : Nat) (f : List Nat) : Option (Nat × List Nat) :=
  if width ≤ f.length then some (le_value (f.take width), f.drop width) else none

/-- Modelled from the spec: the read of `k` elements of type `idx_t`, part of
`READVECTOR`. -/
def read_idx : Nat → List Nat → Option (List Int × List Nat)
  | 0, f => some ([], f)
  | k + 1, f =>
    match READ1 8 f with
    | none => none
    | some (v, f1) =>
      match read_idx k f1 with
      | none => none
      | some (vs, f2) => some (idx_of_bits v :: vs, f2)

/-- Modelled from the spec: the macro `READVECTOR(vec)` on a vector of `idx_t`. -/
def READVECTOR_idx (f : List Nat) : Option (List Int × List Nat) :=
  match READ1 8 f with
  | none => none
  | some (size, f1) => read_idx size f1

/-- Modelled from the spec: the macro `READVECTOR(vec)` on a byte buffer. -/
def READVECTOR_u8 (f : List Nat) : Option (List Nat × List Nat) :=
  match READ1 8 f with
  | none => none
  | some (size, f1) =>
    if size ≤ f1.length then some (f1.take size, f1.drop size) else none

namespace BlockInvertedListsIOHook

/-- The loop of `write`: `k` turns from index `i` on. The result is `none` when
a turn reads `ids[i]` or `codes[i]` outside the vector. -/
def write_lists (il : BlockInvertedLists) : Nat → Nat → List Nat → Option (List Nat)
  | 0, _, f => some f
  | k + 1, i, f =>
    match il.ids[i]?, il.codes[i]? with
    | some idl, some cdl =>
      write_lists il k (i + 1) (WRITEVECTOR_u8 (WRITEVECTOR_idx f idl) cdl)
    | _, _ => none

/-- The method `BlockInvertedListsIOHook::write`: the stream after the call. The
tag is `fourcc("ilbl")`, the characters given by their codes. -/
def write (il : BlockInvertedLists) (f : List Nat) : Option (List Nat) :=
  let h := fourcc [105, 108, 98, 108]
  let f1 := WRITE1 4 f h
  let f2 := WRITE1 8 f1 il.nlist
  let f3 := WRITE1 8 f2 il.code_size
  let f4 := WRITE1 8 f3 il.n_per_block
  let f5 := WRITE1 8 f4 il.block_size
  write_lists il il.nlist 0 f5

/-- The loop of `read`: `k` turns from index `i` on, on the vectors `ids` and
`codes` of the store under construction. -/
def read_lists : Nat → Nat → List Nat → List (List Int) → List (List Nat) →
    Option (List (List Int) × List (List Nat) × List Nat)
  | 0, _, f, ids, codes => some (ids, codes, f)
  | k + 1, i, f, ids, codes =>
    match READVECTOR_idx f with
    | none => none
    | some (idl, f1) =>
      match READVECTOR_u8 f1 with
      | none => none
      | some (cdl, f2) => read_lists k (i + 1) f2 (ids.set i idl) (codes.set i cdl)

/-- The method `BlockInvertedListsIOHook::read`: the store returned and the rest
of the stream, `none` when a read throws. The store starts as the default
constructor leaves it: no packer, no outstanding buffer. -/
def read (f : List Nat) : Option (BlockInvertedLists × List Nat) :=
  match READ1 8 f with
  | none => none
  | some (nlist, f1) =>
    match READ1 8 f1 with
    | none => none
    | some (code_size, f2) =>
      match READ1 8 f2 with
      | none => none
      | some (n_per_block, f3) =>
        match READ1 8 f3 with
        | none => none
        | some (block_size, f4) =>
          match read_lists nlist 0 f4 (List.replicate nlist []) (List.replicate nlist []) with
          | none => none
          | some (ids, codes, f5) =>
            some ({ nlist := nlist
                    code_size := code_size
                    n_per_block := n_per_block
                    block_size := block_size
                    packer := none
                    ids := ids
                    codes := codes
                    allocated_codes := [] }, f5)

/-- The lists that `k` turns of the loop of `read` take from the stream, in the
order read. -/
def parse_lists : Nat → List Nat → Option (List (List Int) × List (List Nat) × List Nat)
  | 0, f => some ([], [], f)
  | k + 1, f =>
    match READVECTOR_idx f with
    | none => none
    | some (idl, f1) =>
      match READVECTOR_u8 f1 with
      | none => none
      | some (cdl, f2) =>
        match parse_lists k f2 with
        | none => none
        | some (ids, codes, f3) => some (idl :: ids, cdl :: codes, f3)

/-- The binary layout of the lists in the words of the spec: for each partition
in increasing order a `u64` id count, that many `u64` ids, a `u64` byte length,
that many code bytes. -/
def lists_layout : List (List Int) → List (List Nat) → List Nat
  | idl :: ids, cdl :: codes =>
    le_bytes 8 idl.length ++ idx_bytes idl ++ (le_bytes 8 cdl.length ++ cdl)
      ++ lists_layout ids codes
  | _, _ => []

/-- The binary layout of a store after the tag, in the words of the spec: `u64
nlist`, `u64` legacy code size, `u64 n_per_block`, `u64 block_size`, then the
lists. -/
def body_layout (il : BlockInvertedLists) : List Nat :=
  le_bytes 8 il.nlist ++ le_bytes 8 il.code_size ++ le_bytes 8 il.n_per_block
    ++ le_bytes 8 il.block_size ++ lists_layout il.ids il.codes

/-- The binary layout of a store in the words of the spec: the four characters
of the tag `ilbl`, then the fields and the lists. -/
def layout (il : BlockInvertedLists) : List Nat :=
  [105, 108, 98, 108] ++ body_layout il

/-- The number of bytes that the lists declare: per partition two `u64` length
fields, 8 bytes per id and the code bytes. -/
def lists_length : List (List Int) → List (List Nat) → Nat
  | idl :: ids, cdl :: codes =>
    8 + 8 * idl.length + (8 + cdl.length) + lists_length ids codes
  | _, _ => 0

/-- The values of a store fit their C++ types, and `ids` and `codes` have
`nlist` elements. -/
def Representable (il : BlockInvertedLists) : Prop :=
  il.nlist < 2 ^ 64 ∧ il.code_size < 2 ^ 64 ∧ il.n_per_block < 2 ^ 64 ∧
  il.block_size < 2 ^ 64 ∧ il.ids.length = il.nlist ∧ il.codes.length = il.nlist ∧
  (∀ idl ∈ il.ids, idl.length < 2 ^ 64 ∧ ∀ z ∈ idl, -2 ^ 63 ≤ z ∧ z < 2 ^ 63) ∧
  (∀ cdl ∈ il.codes, cdl.length < 2 ^ 64)

instance (il : BlockInvertedLists) : Decidable (Representable il) := by
  unfold Representable
  infer_instance

end BlockInvertedListsIOHook

/-- An example packer, used as an input: codes of one byte, two codes per block
of two bytes, the two slots of a block stored in reverse order. -/
def swapPacker : CodePacker where
  code_size := 1
  nvec := 2
  block_size := 2
  pack_1 flat offset block :=
    block.set (2 * (offset / 2) + (1 - offset % 2)) (flat.headD 0)
  unpack_1 block offset := [block.getD (2 * (offset / 2) + (1 - offset % 2)) 0]
  pack_1_size := by intros; simp
  unpack_1_size := by intros; simp

/-- The slot layout of `swapPacker`: the one byte of slot `j`. -/
def swapSlot (j k : Nat) : Prop := k = 2 * (j / 2) + (1 - j % 2)

/-- An example packer, used as an input: codes of one byte, one code per block
of `2 ^ 63` bytes, stored in the first byte of the block. -/
def bigBlockPacker : CodePacker where
  code_size := 1
  nvec := 1
  block_size := 2 ^ 63
  pack_1 flat offset block := block.set (offset * 2 ^ 63) (flat.headD 0)
  unpack_1 block offset := [block.getD (offset * 2 ^ 63) 0]
  pack_1_size := by intros; simp
  unpack_1_size := by intros; simp

/-- The store `BlockInvertedLists(1, bigBlockPacker)`. -/
def bigPackedStore : BlockInvertedLists :=
  BlockInvertedLists.newWithPacker (2 ^ 64 - 1) 1 bigBlockPacker

/-- The store `bigPackedStore` after `resize(0, 2)`: the byte length
`2 * 2 ^ 63` of two blocks is 0 in `size_t` arithmetic. -/
def bigPackedStoreTwo : BlockInvertedLists :=
  { nlist := 1
    code_size := 2 ^ 64 - 1
    n_per_block := 1
    block_size := 2 ^ 63
    packer := some bigBlockPacker
    ids := [[0, 0]]
    codes := [[]]
    allocated_codes := [] }

/-- The store `bigPackedStore` after `resize(0, 4)`. -/
def bigPackedStoreFour : BlockInvertedLists :=
  { nlist := 1
    code_size := 2 ^ 64 - 1
    n_per_block := 1
    block_size := 2 ^ 63
    packer := some bigBlockPacker
    ids := [[0, 0, 0, 0]]
    codes := [[]]
    allocated_codes := [] }

/-- A store without packer, two codes per block of two bytes, one list. -/
def emptyStore : BlockInvertedLists := BlockInvertedLists.new (2 ^ 64 - 1) 1 2 2

/-- The store `emptyStore` after `add_entries(0, 1, [10], [7, 0])`. -/
def oneEntryStore : BlockInvertedLists :=
  { nlist := 1
    code_size := 2 ^ 64 - 1
    n_per_block := 2
    block_size := 2
    packer := none
    ids := [[10]]
    codes := [[7, 0]]
    allocated_codes := [] }

/-- The store `emptyStore` after `add_entries(0, 2, [10, 11], [7, 8])`. -/
def twoEntryStore : BlockInvertedLists :=
  { nlist := 1
    code_size := 2 ^ 64 - 1
    n_per_block := 2
    block_size := 2
    packer := none
    ids := [[10, 11]]
    codes := [[7, 8]]
    allocated_codes := [] }

/-- A store with `n_per_block = 2 ^ 64 - 1` and blocks of one byte. -/
def wideStore : BlockInvertedLists := BlockInvertedLists.new (2 ^ 64 - 1) 1 (2 ^ 64 - 1) 1

/-- The store `wideStore` after `resize(0, 2)`. -/
def wideStoreResized : BlockInvertedLists :=
  { nlist := 1
    code_size := 2 ^ 64 - 1
    n_per_block := 2 ^ 64 - 1
    block_size := 1
    packer := none
    ids := [[0, 0]]
    codes := [[]]
    allocated_codes := [] }

/-- The store `wideStore` after `add_entries(0, 3, [1, 2, 3], [])`. -/
def wideStoreAdded : BlockInvertedLists :=
  { nlist := 1
    code_size := 2 ^ 64 - 1
    n_per_block := 2 ^ 64 - 1
    block_size := 1
    packer := none
    ids := [[1, 2, 3]]
    codes := [[]]
    allocated_codes := [] }

/-- A store without packer, two codes per block of four bytes, whose list 0
holds one whole block: `BlockInvertedLists(1, 2, 4)` after
`add_entries(0, 2, [10, 11], [1, 2, 3, 4])`. -/
def blockStoreFull : BlockInvertedLists :=
  { nlist := 1
    code_size := 2 ^ 64 - 1
    n_per_block := 2
    block_size := 4
    packer := none
    ids := [[10, 11]]
    codes := [[1, 2, 3, 4]]
    allocated_codes := [] }

/-- The store in which `add_entries(0, 1, [12], [5, 6, 7, 8])` leaves
`blockStoreFull` when it throws (new bytes of `codes[0]` read as 0). -/
def blockStoreThrown : BlockInvertedLists :=
  { nlist := 1
    code_size := 2 ^ 64 - 1
    n_per_block := 2
    block_size := 4
    packer := none
    ids := [[10, 11, 12]]
    codes := [[1, 2, 3, 4, 0, 0, 0, 0]]
    allocated_codes := [] }

/-- The store in which `add_entries(0, 2, [11, 12], [8, 9])` leaves
`oneEntryStore` when it throws (new bytes of `codes[0]` read as 255). -/
def oneEntryStoreThrown : BlockInvertedLists :=
  { nlist := 1
    code_size := 2 ^ 64 - 1
    n_per_block := 2
    block_size := 2
    packer := none
    ids := [[10, 11, 12]]
    codes := [[7, 0, 255, 255]]
    allocated_codes := [] }

/-- The store `BlockInvertedLists(1, swapPacker)` after
`add_entries(0, 1, [10], [0, 7])`: slot 0 holds the code 7, slot 1 is padding. -/
def packedStore : BlockInvertedLists :=
  { nlist := 1
    code_size := 2 ^ 64 - 1
    n_per_block := 2
    block_size := 2
    packer := some swapPacker
    ids := [[10]]
    codes := [[0, 7]]
    allocated_codes := [] }

/-- The store `wideStore` after `resize(0, 3)`. -/
def wideStoreResizedThree : BlockInvertedLists :=
  { nlist := 1
    code_size := 2 ^ 64 - 1
    n_per_block := 2 ^ 64 - 1
    block_size := 1
    packer := none
    ids := [[0, 0, 0]]
    codes := [[]]
    allocated_codes := [] }

/-- A store with one code per block of `2 ^ 63` bytes. -/
def bigBlockStore : BlockInvertedLists := BlockInvertedLists.new (2 ^ 64 - 1) 1 1 (2 ^ 63)

/-- The store `bigBlockStore` after `resize(0, 2)`. -/
def bigBlockStoreResized : BlockInvertedLists :=
  { nlist := 1
    code_size := 2 ^ 64 - 1
    n_per_block := 1
    block_size := 2 ^ 63
    packer := none
    ids := [[0, 0]]
    codes := [[]]
    allocated_codes := [] }

/-- A store with `n_per_block = 2 ^ 64 - 1` and blocks of one byte whose list 0
holds two ids and one block. -/
def wideStoreTwo : BlockInvertedLists :=
  { nlist := 1
    code_size := 2 ^ 64 - 1
    n_per_block := 2 ^ 64 - 1
    block_size := 1
    packer := none
    ids := [[1, 2]]
    codes := [[9]]
    allocated_codes := [] }

/-- The store `wideStoreTwo` after `resize(0, 2)`. -/
def wideStoreTwoResized : BlockInvertedLists :=
  { nlist := 1
    code_size := 2 ^ 64 - 1
    n_per_block := 2 ^ 64 - 1
    block_size := 1
    packer := none
    ids := [[1, 2]]
    codes := [[]]
    allocated_codes := [] }

/-- The store `BlockInvertedLists(1, swapPacker)` with three entries in list 0:
slots 0, 1 and 2 hold the codes 1, 2 and 3, slot 3 is padding. -/
def packedStoreThree : BlockInvertedLists :=
  { nlist := 1
    code_size := 2 ^ 64 - 1
    n_per_block := 2
    block_size := 2
    packer := some swapPacker
    ids := [[10, 11, 12]]
    codes := [[2, 1, 0, 3]]
    allocated_codes := [] }

/-- The store `BlockInvertedLists(1, swapPacker)`. -/
def packedEmptyStore : BlockInvertedLists :=
  BlockInvertedLists.newWithPacker (2 ^ 64 - 1) 1 swapPacker

/-- The store `packedEmptyStore` after `add_entries(0, 2, [10, 11], [7, 8])`: one
whole block, slot 0 holds the code 8 and slot 1 the code 7. -/
def packedPairStore : BlockInvertedLists :=
  { nlist := 1
    code_size := 2 ^ 64 - 1
    n_per_block := 2
    block_size := 2
    packer := some swapPacker
    ids := [[10, 11]]
    codes := [[7, 8]]
    allocated_codes := [] }

/-- The store `packedPairStore` after `resize(0, 1)`. -/
def packedPairStoreShrunk : BlockInvertedLists :=
  { nlist := 1
    code_size := 2 ^ 64 - 1
    n_per_block := 2
    block_size := 2
    packer := some swapPacker
    ids := [[10]]
    codes := [[7, 8]]
    allocated_codes := [] }

/-- The store `packedEmptyStore` after `add_entries(0, 1, [10], [9, 7])`: the
caller's block holds the code 7 in slot 0 and the byte 9 in slot 1. -/
def packedStorePadded : BlockInvertedLists :=
  { nlist := 1
    code_size := 2 ^ 64 - 1
    n_per_block := 2
    block_size := 2
    packer := some swapPacker
    ids := [[10]]
    codes := [[9, 7]]
    allocated_codes := [] }

/-- The store `packedStore` after `add_entries(0, 2, [11, 12], [8, 9])` when the
bytes that `codes[0].resize` makes appear read as 255. -/
def packedStoreAddedJunk : BlockInvertedLists :=
  { nlist := 1
    code_size := 2 ^ 64 - 1
    n_per_block := 2
    block_size := 2
    packer := some swapPacker
    ids := [[10, 11, 12]]
    codes := [[9, 7, 255, 8]]
    allocated_codes := [] }

/-- The store in which `add_entries(0, 1, [11], [8, 0])` leaves `oneEntryStore`
when it throws. -/
def oneEntryStoreThrownOne : BlockInvertedLists :=
  { nlist := 1
    code_size := 2 ^ 64 - 1
    n_per_block := 2
    block_size := 2
    packer := none
    ids := [[10, 11]]
    codes := [[7, 0]]
    allocated_codes := [] }

/-- The store `packedStoreThree` after `get_single_code(0, 2)` returned the
address 4096. -/
def packedStoreOut : BlockInvertedLists :=
  { nlist := 1
    code_size := 2 ^ 64 - 1
    n_per_block := 2
    block_size := 2
    packer := some swapPacker
    ids := [[10, 11, 12]]
    codes := [[2, 1, 0, 3]]
    allocated_codes := [4096] }

/-- The store `wideStore` after `add_entries(0, 2, [1, 2], [5])`. -/
def wideStoreAddedTwo : BlockInvertedLists :=
  { nlist := 1
    code_size := 2 ^ 64 - 1
    n_per_block := 2 ^ 64 - 1
    block_size := 1
    packer := none
    ids := [[1, 2]]
    codes := [[]]
    allocated_codes := [] }

/-- A store with two lists, without packer: `BlockInvertedLists(2, 2, 2)`. -/
def twoListStore : BlockInvertedLists := BlockInvertedLists.new (2 ^ 64 - 1) 2 2 2

/-- The store `twoListStore` after `add_entries(0, 1, [10], [7, 0])`. -/
def twoListStoreFirst : BlockInvertedLists :=
  { nlist := 2
    code_size := 2 ^ 64 - 1
    n_per_block := 2
    block_size := 2
    packer := none
    ids := [[10], []]
    codes := [[7, 0], []]
    allocated_codes := [] }

/-- The store `twoListStore` after `add_entries(0, 2, [10, 11], [7, 8])`: list 0
holds one full block. -/
def twoListStoreFull : BlockInvertedLists :=
  { nlist := 2
    code_size := 2 ^ 64 - 1
    n_per_block := 2
    block_size := 2
    packer := none
    ids := [[10, 11], []]
    codes := [[7, 8], []]
    allocated_codes := [] }

/-- The store `packedStore` after `update_entries(0, 0, 1, [99], [42])`. -/
def packedStoreUpdated : BlockInvertedLists :=
  { nlist := 1
    code_size := 2 ^ 64 - 1
    n_per_block := 2
    block_size := 2
    packer := some swapPacker
    ids := [[99]]
    codes := [[0, 42]]
    allocated_codes := [] }

/-- The store `packedStoreUpdated` after `resize(0, 3)`. -/
def packedStoreGrown : BlockInvertedLists :=
  { nlist := 1
    code_size := 2 ^ 64 - 1
    n_per_block := 2
    block_size := 2
    packer := some swapPacker
    ids := [[99, 0, 0]]
    codes := [[0, 42, 0, 0]]
    allocated_codes := [] }

/-- A store without lists: `BlockInvertedLists(0, 2, 2)`. -/
def zeroListStore : BlockInvertedLists := BlockInvertedLists.new (2 ^ 64 - 1) 0 2 2

/-- The stream that `write` produces for `zeroListStore`: the tag `ilbl`, then
`nlist = 0`, `code_size = 2 ^ 64 - 1`, `n_per_block = 2`, `block_size = 2`. -/
def zeroListStream : List Nat :=
  [105, 108, 98, 108] ++ List.replicate 8 0 ++ List.replicate 8 255
    ++ (2 :: List.replicate 7 0) ++ (2 :: List.replicate 7 0)

/-- The stream that `write` produces for `twoEntryStore`. -/
def twoEntryStream : List Nat :=
  [105, 108, 98, 108] ++ (1 :: List.replicate 7 0) ++ List.replicate 8 255
    ++ (2 :: List.replicate 7 0) ++ (2 :: List.replicate 7 0)
    ++ (2 :: List.replicate 7 0) ++ (10 :: List.replicate 7 0) ++ (11 :: List.replicate 7 0)
    ++ (2 :: List.replicate 7 0) ++ [7, 8]

/-- A stream after the tag with `nlist = 1`, no id in list 0, a declared length
of 100 code bytes and one code byte. -/
def truncatedStream : List Nat :=
  (1 :: List.replicate 7 0) ++ List.replicate 8 255
    ++ (2 :: List.replicate 7 0) ++ (2 :: List.replicate 7 0)
    ++ List.replicate 8 0 ++ (100 :: List.replicate 7 0) ++ [7]

/-- A stream of 32 zero bytes: its first four bytes are not the tag `ilbl`. -/
def zeroStream : List Nat := List.replicate 32 0

/-- The store that `read` returns for `zeroStream`. -/
def zeroStreamStore : BlockInvertedLists :=
  { nlist := 0
    code_size := 0
    n_per_block := 0
    block_size := 0
    packer := none
    ids := []
    codes := []
    allocated_codes := [] }

/-! ## Theorems -/

open BlockInvertedLists

/-! ### Machine arithmetic without wrap-around -/

theorem wadd_eq {a b : Nat} (h : a + b < 2 ^ 64) : wadd a b = a + b :=
  Nat.mod_eq_of_lt h

theorem wmul_eq {a b : Nat} (h : a * b < 2 ^ 64) : wmul a b = a * b :=
  Nat.mod_eq_of_lt h

/-- When `L + d` does not exceed `2 ^ 64`, the source's block count
`(L + d - 1) / d` is computed without wrap-around. -/
theorem n_block_eq {L d : Nat} (hd : 0 < d) (h : L + d ≤ 2 ^ 64) :
    wsub1 (wadd L d) / d = (L + d - 1) / d := by
  have : wsub1 (wadd L d) = L + d - 1 := by
    unfold wsub1 wadd
    omega
  rw [this]

theorem n_block_zero (d : Nat) : wsub1 (wadd 0 d) / d = 0 := by
  rcases Nat.eq_zero_or_pos d with hd | hd
  · subst hd; simp
  · apply Nat.div_eq_of_lt
    unfold wsub1 wadd
    omega

/-! ### Buffers -/

theorem vresize_length {α : Type} (xs : List α) (n : Nat) (fill : Nat → α) :
    (vresize xs n fill).length = n := by
  simp [vresize]
  omega

theorem vresize_of_le {α : Type} (xs : List α) (n : Nat) (fill : Nat → α)
    (h : xs.length ≤ n) :
    vresize xs n fill = xs ++ (List.range (n - xs.length)).map (fun k => fill (xs.length + k)) := by
  simp [vresize, List.take_of_length_le h]

theorem vresize_getElem?_lt {α : Type} (xs : List α) (n : Nat) (fill : Nat → α) (k : Nat)
    (hk : k < n) (hk' : k < xs.length) : (vresize xs n fill)[k]? = xs[k]? := by
  unfold vresize
  rw [List.getElem?_append_left (by simp; omega), List.getElem?_take_of_lt hk]

theorem memcpy_eq_some {α : Type} {dst src r : List α} {off len : Nat}
    (h : memcpy dst off src len = some r) :
    off + len ≤ dst.length ∧ len ≤ src.length ∧
      r = dst.take off ++ src.take len ++ dst.drop (off + len) := by
  unfold memcpy at h
  split at h
  · rename_i hc
    simp only [Option.some.injEq] at h
    exact ⟨hc.1, hc.2, h.symm⟩
  · exact absurd h (by simp)

theorem memcpy_length {α : Type} {dst src r : List α} {off len : Nat}
    (h : memcpy dst off src len = some r) : r.length = dst.length := by
  obtain ⟨h1, h2, rfl⟩ := memcpy_eq_some h
  simp
  omega

/-! ### `add_entries` -/

theorem add_entries_ids_copy {idl ids_in idl2 : List Int} {n : Nat}
    (h : memcpy (vresize idl (wadd idl.length n) (fun _ => 0)) idl.length ids_in n
      = some idl2) :
    idl.length + n < 2 ^ 64 ∧ n ≤ ids_in.length ∧ idl2 = idl ++ ids_in.take n := by
  obtain ⟨h1, h2, h3⟩ := memcpy_eq_some h
  rw [vresize_length] at h1
  have hlt : idl.length + n < 2 ^ 64 := by
    unfold wadd at h1
    omega
  refine ⟨hlt, h2, ?_⟩
  rw [h3, wadd_eq hlt, vresize_of_le _ _ _ (by omega)]
  simp

theorem add_entries_loop_length (pk : CodePacker) (code : List Nat) (o n : Nat)
    (buf : List Nat) : (add_entries_loop pk code o n buf).length = buf.length := by
  unfold add_entries_loop
  induction n with
  | zero => simp
  | succ k ih => rw [List.range_succ, List.foldl_append]; simp [pk.pack_1_size, ih]

/-- What a returning call of `add_entries` with `n_entry ≠ 0` has done. -/
theorem add_entries_ok_inv {s s' : BlockInvertedLists} {junk : Nat → Nat}
    {list_no n r : Nat} {ids_in : List Int} {code : List Nat} (hn : n ≠ 0)
    (h : s.add_entries junk list_no n ids_in code = .ok s' r) :
    ∃ idl cdl cdl', list_no < s.nlist ∧ s.ids[list_no]? = some idl ∧
      s.codes[list_no]? = some cdl ∧ idl.length + n < 2 ^ 64 ∧ n ≤ ids_in.length ∧
      s.n_per_block ≠ 0 ∧ s.block_size ≠ 0 ∧ r = idl.length ∧
      cdl'.length
        = wmul (wsub1 (wadd (idl.length + n) s.n_per_block) / s.n_per_block) s.block_size ∧
      s' = { s with ids := s.ids.set list_no (idl ++ ids_in.take n),
                    codes := s.codes.set list_no cdl' } := by
  unfold add_entries at h
  rw [if_neg hn] at h
  split at h
  · exact Outcome.noConfusion h
  · rename_i hlt
    have hlt' : list_no < s.nlist := by simpa using hlt
    split at h
    · rename_i idl cdl hi hc
      dsimp only at h
      split at h
      · exact Outcome.noConfusion h
      · rename_i idl2 hcp
        obtain ⟨hw, hlen, rfl⟩ := add_entries_ids_copy hcp
        split at h
        · exact Outcome.noConfusion h
        · rename_i hnpb
          split at h
          · exact Outcome.noConfusion h
          · rename_i hbs
            rw [wadd_eq hw] at h
            split at h
            · split at h
              · exact Outcome.noConfusion h
              · rename_i cdl2 hcp2
                injection h with h1 h2
                exact ⟨idl, cdl, cdl2, hlt', hi, hc, hw, hlen, hnpb, hbs, h2.symm,
                  by rw [memcpy_length hcp2, vresize_length], h1.symm⟩
            · split at h
              · exact Outcome.noConfusion h
              · rename_i pk hpk
                split at h
                · injection h with h1 h2
                  exact ⟨idl, cdl, _, hlt', hi, hc, hw, hlen, hnpb, hbs, h2.symm,
                    by rw [add_entries_loop_length, vresize_length], h1.symm⟩
                · exact Outcome.noConfusion h
    · exact Outcome.noConfusion h

theorem memcpy_ids {idl ids_in : List Int} {n : Nat} (hw : idl.length + n < 2 ^ 64)
    (hle : n ≤ ids_in.length) :
    memcpy (vresize idl (wadd idl.length n) (fun _ => 0)) idl.length ids_in n
      = some (idl ++ ids_in.take n) := by
  unfold memcpy
  rw [if_pos ⟨by rw [vresize_length, wadd_eq hw], hle⟩, wadd_eq hw,
    vresize_of_le _ _ _ (by omega)]
  simp

theorem add_entries_zero (s : BlockInvertedLists) (junk : Nat → Nat) (list_no : Nat)
    (ids_in : List Int) (code : List Nat) :
    s.add_entries junk list_no 0 ids_in code = .ok s 0 := by
  simp [add_entries]

/-- A call of `add_entries` with `n_entry ≠ 0` on a list number outside
`[0, nlist)` throws and leaves the store as it was. -/
theorem add_entries_throws_of_not_lt (s : BlockInvertedLists) (junk : Nat → Nat)
    (list_no n : Nat) (ids_in : List Int) (code : List Nat) (hn : n ≠ 0)
    (hlt : ¬ list_no < s.nlist) :
    s.add_entries junk list_no n ids_in code = .throws s := by
  unfold add_entries
  rw [if_neg hn, if_pos hlt]

/-! ### `resize` -/

theorem resize_codes_eq (cdl : List Nat) (nb : Nat) (junk : Nat → Nat) :
    (if cdl.length < nb then memset (vresize cdl nb junk) cdl.length 0 (nb - cdl.length)
      else vresize cdl nb junk)
      = cdl.take nb ++ List.replicate (nb - cdl.length) 0 := by
  split
  · rename_i h
    rw [vresize_of_le _ _ _ (Nat.le_of_lt h), memset, List.take_of_length_le (Nat.le_of_lt h)]
    rw [List.take_left' rfl, List.drop_of_length_le (by simp)]
    simp
  · rename_i h
    have h0 : nb - cdl.length = 0 := by omega
    simp [vresize, h0]

/-- What a returning call of `resize` has done. -/
theorem resize_ok_inv {s s' : BlockInvertedLists} {junk : Nat → Nat} {list_no new_size : Nat}
    (h : s.resize junk list_no new_size = .ok s' ()) :
    ∃ idl cdl, s.ids[list_no]? = some idl ∧ s.codes[list_no]? = some cdl ∧
      s.n_per_block ≠ 0 ∧
      s' = { s with
        ids := s.ids.set list_no (vresize idl new_size (fun _ => 0)),
        codes := s.codes.set list_no
          (cdl.take (wmul (wsub1 (wadd new_size s.n_per_block) / s.n_per_block) s.block_size)
            ++ List.replicate
              (wmul (wsub1 (wadd new_size s.n_per_block) / s.n_per_block) s.block_size
                - cdl.length) 0) } := by
  unfold resize at h
  split at h
  · rename_i idl cdl hi hc
    dsimp only at h
    split at h
    · exact Outcome.noConfusion h
    · rename_i hnpb
      rw [resize_codes_eq] at h
      injection h with h1 h2
      exact ⟨idl, cdl, hi, hc, hnpb, h1.symm⟩
  · exact Outcome.noConfusion h

/-- A call of `resize` on a list of the store returns when `n_per_block ≠ 0`. -/
theorem resize_ok {s : BlockInvertedLists} {list_no : Nat} {idl : List Int} {cdl : List Nat}
    (junk : Nat → Nat) (new_size : Nat)
    (hi : s.ids[list_no]? = some idl) (hc : s.codes[list_no]? = some cdl)
    (hnpb : s.n_per_block ≠ 0) :
    s.resize junk list_no new_size = .ok { s with
        ids := s.ids.set list_no (vresize idl new_size (fun _ => 0)),
        codes := s.codes.set list_no
          (cdl.take (wmul (wsub1 (wadd new_size s.n_per_block) / s.n_per_block) s.block_size)
            ++ List.replicate
              (wmul (wsub1 (wadd new_size s.n_per_block) / s.n_per_block) s.block_size
                - cdl.length) 0) } () := by
  unfold resize
  rw [hi, hc]
  dsimp only
  rw [if_neg hnpb, resize_codes_eq]

theorem take_replicate_length (cdl : List Nat) (nb : Nat) :
    (cdl.take nb ++ List.replicate (nb - cdl.length) 0).length = nb := by
  simp
  omega

theorem take_replicate_getElem?_lt (cdl : List Nat) (nb k : Nat) (hk : k < cdl.length)
    (hk' : k < nb) : (cdl.take nb ++ List.replicate (nb - cdl.length) 0)[k]? = cdl[k]? := by
  rw [List.getElem?_append_left (by simp; omega), List.getElem?_take_of_lt hk']

theorem take_replicate_getElem?_ge (cdl : List Nat) (nb k : Nat) (hk : cdl.length ≤ k)
    (hk' : k < nb) :
    (cdl.take nb ++ List.replicate (nb - cdl.length) 0)[k]? = some 0 := by
  have hl : (cdl.take nb).length = cdl.length := by simp; omega
  rw [List.getElem?_append_right (by omega), hl,
    List.getElem?_replicate_of_lt (by omega)]

/-! ### `update_entries` -/

theorem update_entries_step_some {packer : Option CodePacker} {offset i : Nat}
    {ids_in : List Int} {code : List Nat} {st : Option (List Int × List Nat)}
    {a1 : List Int} {b1 : List Nat}
    (h : update_entries_step packer offset ids_in code st i = some (a1, b1)) :
    ∃ a0 b0, st = some (a0, b0) ∧ a1.length = a0.length ∧ b1.length = b0.length := by
  unfold update_entries_step at h
  split at h
  · exact absurd h (by simp)
  · rename_i a0 b0
    split at h
    · split at h
      · exact absurd h (by simp)
      · split at h
        · exact absurd h (by simp)
        · rename_i pk
          split at h
          · simp only [Option.some.injEq, Prod.mk.injEq] at h
            refine ⟨a0, b0, rfl, ?_, ?_⟩
            · rw [← h.1]; simp
            · rw [← h.2]; exact pk.pack_1_size _ _ _
          · exact absurd h (by simp)
    · exact absurd h (by simp)

theorem update_entries_fold_length {packer : Option CodePacker} {offset : Nat}
    {ids_in : List Int} {code : List Nat} (l : List Nat) :
    ∀ (st : Option (List Int × List Nat)) (a : List Int) (b : List Nat),
      l.foldl (update_entries_step packer offset ids_in code) st = some (a, b) →
      ∃ a0 b0, st = some (a0, b0) ∧ a.length = a0.length ∧ b.length = b0.length := by
  induction l with
  | nil => intro st a b h; exact ⟨a, b, h, rfl, rfl⟩
  | cons i l ih =>
    intro st a b h
    rw [List.foldl_cons] at h
    obtain ⟨a1, b1, h1, ha, hb⟩ := ih _ _ _ h
    obtain ⟨a0, b0, h0, ha0, hb0⟩ := update_entries_step_some h1
    exact ⟨a0, b0, h0, ha.trans ha0, hb.trans hb0⟩

/-- What a returning call of `update_entries` has done to the sizes. -/
theorem update_entries_ok_inv {s s' : BlockInvertedLists} {list_no offset n : Nat}
    {ids_in : List Int} {code : List Nat}
    (h : s.update_entries list_no offset n ids_in code = .ok s' ()) :
    ∃ idl cdl idl1 cdl1, s.ids[list_no]? = some idl ∧ s.codes[list_no]? = some cdl ∧
      idl1.length = idl.length ∧ cdl1.length = cdl.length ∧
      s' = { s with ids := s.ids.set list_no idl1, codes := s.codes.set list_no cdl1 } := by
  unfold update_entries at h
  split at h
  · exact Outcome.noConfusion h
  · split at h
    · rename_i idl cdl hi hc
      split at h
      · exact Outcome.noConfusion h
      · split at h
        · exact Outcome.noConfusion h
        · rename_i idl1 cdl1 hf
          obtain ⟨a0, b0, h0, ha, hb⟩ := update_entries_fold_length _ _ _ _ hf
          simp only [Option.some.injEq, Prod.mk.injEq] at h0
          injection h with h1 h2
          exact ⟨idl, cdl, idl1, cdl1, hi, hc, by rw [ha, ← h0.1], by rw [hb, ← h0.2],
            h1.symm⟩
    · exact Outcome.noConfusion h

/-- A call of `update_entries` whose `size_t` sum `offset + n_entry` exceeds the
size of the list throws and leaves the store as it was. -/
theorem update_entries_throws_of_range (s : BlockInvertedLists)
    (list_no offset n : Nat) (ids_in : List Int) (code : List Nat)
    (idl : List Int) (cdl : List Nat) (hlt : list_no < s.nlist)
    (hi : s.ids[list_no]? = some idl) (hc : s.codes[list_no]? = some cdl)
    (hr : idl.length < wadd offset n) :
    s.update_entries list_no offset n ids_in code = .throws s := by
  unfold update_entries
  rw [if_neg (not_not.mpr hlt), hi, hc]
  dsimp only
  rw [if_pos (by omega)]

/-- A call of `update_entries` on a list number outside `[0, nlist)` throws and
leaves the store as it was. -/
theorem update_entries_throws_of_not_lt (s : BlockInvertedLists)
    (list_no offset n : Nat) (ids_in : List Int) (code : List Nat)
    (hlt : ¬ list_no < s.nlist) :
    s.update_entries list_no offset n ids_in code = .throws s := by
  unfold update_entries
  rw [if_pos hlt]

/-- Under the size invariant every slot below the logical size lies in the
byte buffer. -/
theorem slotIn_of_lt (pk : CodePacker) {j L : Nat} (hnv : 1 ≤ pk.nvec) (hj : j < L) :
    pk.SlotIn j ((L + pk.nvec - 1) / pk.nvec * pk.block_size) := by
  unfold CodePacker.SlotIn
  apply Nat.mul_le_mul_right
  have h1 : j / pk.nvec + 1 = (j + pk.nvec) / pk.nvec := (Nat.add_div_right j hnv).symm
  rw [h1]
  exact Nat.div_le_div_right (by omega)

/-- The loop of `update_entries` with a packer that satisfies the round-trip
and non-interference laws, on a range inside the list. -/
theorem update_entries_fold {pk : CodePacker} {offset : Nat} {ids_in : List Int}
    {code : List Nat} {idl : List Int} {cdl : List Nat}
    (hrt : pk.RoundTrip) (hni : pk.NonInterference)
    (hslot : ∀ j, j < idl.length → pk.SlotIn j cdl.length)
    (hsz : idl.length < 2 ^ 64) (hcsz : code.length < 2 ^ 64) :
    ∀ k, offset + k ≤ idl.length → k ≤ ids_in.length → k * pk.code_size ≤ code.length →
      ∃ idl1 cdl1,
        (List.range k).foldl (update_entries_step (some pk) offset ids_in code)
          (some (idl, cdl)) = some (idl1, cdl1) ∧
        idl1.length = idl.length ∧ cdl1.length = cdl.length ∧
        (∀ i, i < k → idl1[offset + i]? = ids_in[i]? ∧
          pk.unpack_1 cdl1 (offset + i)
            = (code.drop (i * pk.code_size)).take pk.code_size) ∧
        (∀ j, (j < offset ∨ offset + k ≤ j) →
          idl1[j]? = idl[j]? ∧
            (pk.SlotIn j cdl.length → pk.unpack_1 cdl1 j = pk.unpack_1 cdl j)) := by
  intro k
  induction k with
  | zero =>
    intro _ _ _
    exact ⟨idl, cdl, rfl, rfl, rfl, fun i hi => absurd hi (Nat.not_lt_zero i),
      fun j _ => ⟨rfl, fun _ => rfl⟩⟩
  | succ k ih =>
    intro h1 h2 h3
    have hmul : (k + 1) * pk.code_size = k * pk.code_size + pk.code_size := Nat.succ_mul _ _
    obtain ⟨idl1, cdl1, hfold, hl1, hl2, hin, hout⟩ := ih (by omega) (by omega) (by omega)
    have hk : k < ids_in.length := by omega
    have hv : ids_in[k]? = some ids_in[k] := List.getElem?_eq_getElem hk
    have hlt : offset + k < idl1.length := by omega
    have hsl : ∀ j, j < idl.length → pk.SlotIn j cdl1.length := by
      intro j hj; rw [hl2]; exact hslot j hj
    have hstep : update_entries_step (some pk) offset ids_in code (some (idl1, cdl1)) k
        = some (idl1.set (offset + k) ids_in[k],
            pk.pack_1 (code.drop (k * pk.code_size)) (offset + k) cdl1) := by
      simp only [update_entries_step, wadd_eq (show offset + k < 2 ^ 64 by omega), hlt,
        if_true, hv, wmul_eq (show k * pk.code_size < 2 ^ 64 by omega),
        hsl (offset + k) (by omega)]
    have hflat : pk.code_size ≤ (code.drop (k * pk.code_size)).length := by
      rw [List.length_drop]; omega
    refine ⟨_, _, by rw [List.range_succ, List.foldl_append, hfold]; exact hstep,
      by simp [hl1], by rw [pk.pack_1_size, hl2], ?_, ?_⟩
    · intro i hi
      rcases Nat.lt_succ_iff_lt_or_eq.mp hi with hik | hik
      · have hne : offset + k ≠ offset + i := by omega
        rw [List.getElem?_set_ne hne,
          hni _ _ _ _ hne hflat (hsl _ (by omega)) (hsl _ (by omega))]
        exact hin i hik
      · subst hik
        rw [List.getElem?_set_self hlt, hv]
        exact ⟨rfl, hrt _ _ _ hflat (hsl _ (by omega))⟩
    · intro j hjo
      have hne : offset + k ≠ j := by omega
      rw [List.getElem?_set_ne hne]
      refine ⟨(hout j (by omega)).1, fun hj => ?_⟩
      rw [hni _ _ _ _ hne hflat (hsl _ (by omega)) (by rw [hl2]; exact hj)]
      exact (hout j (by omega)).2 hj

/-- A call of `get_single_code` inside a list, with a packer, on a slot that
lies in the byte buffer, returns what the slot unpacks to. -/
theorem get_single_code_ok {s : BlockInvertedLists} {pk : CodePacker} {list_no offset : Nat}
    {idl : List Int} {cdl : List Nat} (addr : Nat)
    (hpk : s.packer = some pk) (hlt : list_no < s.nlist)
    (hi : s.ids[list_no]? = some idl) (hc : s.codes[list_no]? = some cdl)
    (ho : offset < idl.length) (hslot : pk.SlotIn offset cdl.length) :
    s.get_single_code addr list_no offset
      = .ok { s with allocated_codes := s.allocated_codes.insert addr }
          (addr, pk.unpack_1 cdl offset) := by
  unfold get_single_code
  rw [if_neg (not_not.mpr hlt), hi, hc]
  dsimp only
  rw [if_neg (not_not.mpr ho), hpk]
  dsimp only
  rw [if_pos hslot]

/-! ### The size relation is kept -/

theorem wrapSizeInv_set {s : BlockInvertedLists} (h : WrapSizeInv s) (p : Nat)
    (idl1 : List Int) (cdl1 : List Nat)
    (hlen : cdl1.length
      = wmul (wsub1 (wadd idl1.length s.n_per_block) / s.n_per_block) s.block_size) :
    WrapSizeInv { s with ids := s.ids.set p idl1, codes := s.codes.set p cdl1 } := by
  obtain ⟨h1, h2, h3⟩ := h
  refine ⟨by simpa using h1, by simpa using h2, ?_⟩
  intro q a b ha hb
  dsimp only at ha hb ⊢
  rw [List.getElem?_set] at ha hb
  by_cases hq : p = q
  · rw [if_pos hq] at ha hb
    split at ha
    · split at hb
      · simp only [Option.some.injEq] at ha hb
        rw [← ha, ← hb]; exact hlen
      · exact absurd hb (by simp)
    · exact absurd ha (by simp)
  · rw [if_neg hq] at ha hb
    exact h3 q a b ha hb

theorem replicate_nil_getElem? {α : Type} {n p : Nat} {a : List α}
    (h : (List.replicate n ([] : List α))[p]? = some a) : a = [] := by
  rw [List.getElem?_replicate] at h
  split at h
  · simp only [Option.some.injEq] at h
    exact h.symm
  · exact absurd h (by simp)

theorem wrapSizeInv_fresh {s0 : BlockInvertedLists} (h : Fresh s0) : WrapSizeInv s0 := by
  cases h with
  | new c nlist npb bs =>
    refine ⟨by simp [BlockInvertedLists.new], by simp [BlockInvertedLists.new], ?_⟩
    intro p a b ha hb
    rw [replicate_nil_getElem? ha, replicate_nil_getElem? hb]
    simp [BlockInvertedLists.new, n_block_zero, wmul]
  | newWithPacker c nlist pk =>
    refine ⟨by simp [BlockInvertedLists.newWithPacker],
      by simp [BlockInvertedLists.newWithPacker], ?_⟩
    intro p a b ha hb
    rw [replicate_nil_getElem? ha, replicate_nil_getElem? hb]
    simp [BlockInvertedLists.newWithPacker, n_block_zero, wmul]

theorem wrapSizeInv_reachable {s0 s : BlockInvertedLists} (h0 : WrapSizeInv s0)
    (hr : Reachable s0 s) :
    WrapSizeInv s ∧ s.nlist = s0.nlist ∧ s.n_per_block = s0.n_per_block ∧
      s.block_size = s0.block_size := by
  induction hr with
  | init => exact ⟨h0, rfl, rfl, rfl⟩
  | @add_entries s s' junk list_no n r ids_in code _ hok ih =>
    obtain ⟨hinv, h1, h2, h3⟩ := ih
    by_cases hn : n = 0
    · subst hn
      rw [add_entries_zero] at hok
      injection hok with hs
      subst hs
      exact ⟨hinv, h1, h2, h3⟩
    · obtain ⟨idl, cdl, cdl1, _, _, _, _, hle, _, _, _, hlen, rfl⟩ :=
        add_entries_ok_inv hn hok
      refine ⟨wrapSizeInv_set hinv _ _ _ ?_, h1, h2, h3⟩
      rw [hlen, List.length_append, List.length_take, Nat.min_eq_left hle]
  | @update_entries s s' list_no offset n ids_in code _ hok ih =>
    obtain ⟨hinv, h1, h2, h3⟩ := ih
    obtain ⟨idl, cdl, idl1, cdl1, hi, hc, ha, hb, rfl⟩ := update_entries_ok_inv hok
    refine ⟨wrapSizeInv_set hinv _ _ _ ?_, h1, h2, h3⟩
    rw [ha, hb]
    exact hinv.2.2 _ _ _ hi hc
  | @resize s s' junk list_no new_size _ hok ih =>
    obtain ⟨hinv, h1, h2, h3⟩ := ih
    obtain ⟨idl, cdl, hi, hc, _, rfl⟩ := resize_ok_inv hok
    refine ⟨wrapSizeInv_set hinv _ _ _ ?_, h1, h2, h3⟩
    rw [vresize_length]
    simp
    omega

/-! ### The example packer satisfies the laws -/

theorem swapPacker_pos_lt {i len : Nat} (h : swapPacker.SlotIn i len) :
    2 * (i / 2) + (1 - i % 2) < len := by
  unfold CodePacker.SlotIn at h
  simp only [swapPacker] at h
  omega

theorem swapPacker_roundTrip : swapPacker.RoundTrip := by
  intro flat i block hflat hslot
  have hpos := swapPacker_pos_lt hslot
  cases flat with
  | nil => simp [swapPacker] at hflat
  | cons a t => simp [swapPacker, hpos]

theorem swapPacker_nonInterference : swapPacker.NonInterference := by
  intro flat i j block hij _ _ _
  have hne : 2 * (i / 2) + (1 - i % 2) ≠ 2 * (j / 2) + (1 - j % 2) := by omega
  simp [swapPacker, List.getElem?_set_ne hne]

theorem swapPacker_layout : swapPacker.Layout swapSlot := by
  constructor
  · intro flat i block k hk
    have hne : 2 * (i / 2) + (1 - i % 2) ≠ k := fun h => hk h.symm
    simp only [swapPacker]
    exact List.getElem?_set_ne hne
  · intro i j k hi hj
    unfold swapSlot at hi hj
    omega

theorem bigBlockPacker_pos_lt {i len : Nat} (h : bigBlockPacker.SlotIn i len) :
    i * 2 ^ 63 < len := by
  unfold CodePacker.SlotIn at h
  simp only [bigBlockPacker, Nat.div_one] at h
  omega

theorem bigBlockPacker_roundTrip : bigBlockPacker.RoundTrip := by
  intro flat i block hflat hslot
  have hpos := bigBlockPacker_pos_lt hslot
  norm_num at hpos
  cases flat with
  | nil => simp [bigBlockPacker] at hflat
  | cons a t => simp [bigBlockPacker, hpos]

theorem bigBlockPacker_nonInterference : bigBlockPacker.NonInterference := by
  intro flat i j block hij _ _ _
  have hne : i * 2 ^ 63 ≠ j * 2 ^ 63 := by omega
  norm_num at hne
  simp [bigBlockPacker, List.getElem?_set_ne, hne]

/-! ### Serialisation -/

theorem le_bytes_length (w x : Nat) : (le_bytes w x).length = w := by
  induction w generalizing x with
  | zero => rfl
  | succ w ih => simp [le_bytes, ih]

theorem le_value_le_bytes (w x : Nat) : le_value (le_bytes w x) = x % 256 ^ w := by
  induction w generalizing x with
  | zero => simp [le_bytes, le_value, Nat.mod_one]
  | succ w ih =>
    simp only [le_bytes, le_value, ih]
    rw [Nat.pow_succ, Nat.mul_comm (256 ^ w) 256, Nat.mod_mul]

theorem READ1_le_bytes {x : Nat} (rest : List Nat) (hx : x < 2 ^ 64) :
    READ1 8 (le_bytes 8 x ++ rest) = some (x, rest) := by
  unfold READ1
  rw [if_pos (by simp [le_bytes_length]), List.take_left' (le_bytes_length 8 x),
    List.drop_left' (le_bytes_length 8 x), le_value_le_bytes,
    Nat.mod_eq_of_lt (by omega)]

theorem READ1_some {w : Nat} {f r : List Nat} {v : Nat} (h : READ1 w f = some (v, r)) :
    f.length = w + r.length ∧ v = le_value (f.take w) ∧ r = f.drop w := by
  unfold READ1 at h
  split at h
  · rename_i hw
    simp only [Option.some.injEq, Prod.mk.injEq] at h
    refine ⟨?_, h.1.symm, h.2.symm⟩
    rw [← h.2, List.length_drop]
    omega
  · exact absurd h (by simp)

theorem idx_bits_lt (z : Int) : idx_bits z < 2 ^ 64 := by
  unfold idx_bits
  omega

theorem idx_of_bits_idx_bits {z : Int} (h1 : -2 ^ 63 ≤ z) (h2 : z < 2 ^ 63) :
    idx_of_bits (idx_bits z) = z := by
  unfold idx_of_bits idx_bits
  split <;> omega

theorem idx_bytes_length (idl : List Int) : (idx_bytes idl).length = 8 * idl.length := by
  induction idl with
  | nil => rfl
  | cons z zs ih => simp [idx_bytes, le_bytes_length, ih]; omega

theorem read_idx_idx_bytes (idl : List Int) (rest : List Nat)
    (h : ∀ z ∈ idl, -2 ^ 63 ≤ z ∧ z < 2 ^ 63) :
    read_idx idl.length (idx_bytes idl ++ rest) = some (idl, rest) := by
  induction idl with
  | nil => rfl
  | cons z zs ih =>
    have hz := h z (List.mem_cons_self z zs)
    simp only [List.length_cons, read_idx, idx_bytes, List.append_assoc]
    rw [READ1_le_bytes _ (idx_bits_lt z)]
    simp only
    rw [ih (fun y hy => h y (List.mem_cons_of_mem z hy))]
    simp only
    rw [idx_of_bits_idx_bits hz.1 hz.2]

theorem read_idx_some {k : Nat} {f r : List Nat} {vs : List Int}
    (h : read_idx k f = some (vs, r)) : vs.length = k ∧ f.length = 8 * k + r.length := by
  induction k generalizing f vs r with
  | zero =>
    simp only [read_idx, Option.some.injEq, Prod.mk.injEq] at h
    rw [← h.1, ← h.2]
    simp
  | succ k ih =>
    simp only [read_idx] at h
    split at h
    · exact absurd h (by simp)
    · rename_i v f1 h1
      split at h
      · exact absurd h (by simp)
      · rename_i ws f2 h2
        simp only [Option.some.injEq, Prod.mk.injEq] at h
        obtain ⟨hl, hf⟩ := ih h2
        have hr := (READ1_some h1).1
        rw [← h.1, ← h.2]
        simp only [List.length_cons]
        omega

theorem READVECTOR_idx_layout (idl : List Int) (rest : List Nat)
    (hlen : idl.length < 2 ^ 64) (h : ∀ z ∈ idl, -2 ^ 63 ≤ z ∧ z < 2 ^ 63) :
    READVECTOR_idx (le_bytes 8 idl.length ++ idx_bytes idl ++ rest) = some (idl, rest) := by
  unfold READVECTOR_idx
  rw [List.append_assoc, READ1_le_bytes _ hlen]
  simp only
  exact read_idx_idx_bytes idl rest h

theorem READVECTOR_idx_some {f r : List Nat} {vs : List Int}
    (h : READVECTOR_idx f = some (vs, r)) : f.length = 8 + 8 * vs.length + r.length := by
  unfold READVECTOR_idx at h
  split at h
  · exact absurd h (by simp)
  · rename_i size f1 h1
    obtain ⟨hl, hf⟩ := read_idx_some h
    have hr := (READ1_some h1).1
    omega

theorem READVECTOR_u8_layout (cdl rest : List Nat) (hlen : cdl.length < 2 ^ 64) :
    READVECTOR_u8 (le_bytes 8 cdl.length ++ cdl ++ rest) = some (cdl, rest) := by
  unfold READVECTOR_u8
  rw [List.append_assoc, READ1_le_bytes _ hlen]
  simp

theorem READVECTOR_u8_some {f r cdl : List Nat}
    (h : READVECTOR_u8 f = some (cdl, r)) : f.length = 8 + cdl.length + r.length := by
  unfold READVECTOR_u8 at h
  split at h
  · exact absurd h (by simp)
  · rename_i size f1 h1
    split at h
    · rename_i hs
      simp only [Option.some.injEq, Prod.mk.injEq] at h
      have hr := (READ1_some h1).1
      rw [← h.1, ← h.2, List.length_take, List.length_drop]
      omega
    · exact absurd h (by simp)

open BlockInvertedListsIOHook in
theorem parse_lists_layout (ids : List (List Int)) (codes : List (List Nat))
    (rest : List Nat) (hlen : ids.length = codes.length)
    (hi : ∀ idl ∈ ids, idl.length < 2 ^ 64 ∧ ∀ z ∈ idl, -2 ^ 63 ≤ z ∧ z < 2 ^ 63)
    (hc : ∀ cdl ∈ codes, cdl.length < 2 ^ 64) :
    parse_lists ids.length (lists_layout ids codes ++ rest) = some (ids, codes, rest) := by
  induction ids generalizing codes with
  | nil =>
    cases codes with
    | nil => rfl
    | cons c cs => simp at hlen
  | cons idl ids ih =>
    cases codes with
    | nil => simp at hlen
    | cons cdl codes =>
      have hidl := hi idl (List.mem_cons_self _ _)
      have hcdl := hc cdl (List.mem_cons_self _ _)
      simp only [List.length_cons, parse_lists, lists_layout, List.append_assoc]
      rw [← List.append_assoc, READVECTOR_idx_layout idl _ hidl.1 hidl.2]
      simp only
      rw [← List.append_assoc, READVECTOR_u8_layout cdl _ hcdl]
      simp only
      rw [ih codes (by simpa using hlen) (fun y hy => hi y (List.mem_cons_of_mem _ hy))
        (fun y hy => hc y (List.mem_cons_of_mem _ hy))]

open BlockInvertedListsIOHook in
theorem parse_lists_some {k : Nat} {f r : List Nat} {ids : List (List Int)}
    {codes : List (List Nat)} (h : parse_lists k f = some (ids, codes, r)) :
    ids.length = k ∧ codes.length = k ∧ f.length = lists_length ids codes + r.length := by
  induction k generalizing f ids codes r with
  | zero =>
    simp only [parse_lists, Option.some.injEq, Prod.mk.injEq] at h
    rw [← h.1, ← h.2.1, ← h.2.2]
    simp [lists_length]
  | succ k ih =>
    simp only [parse_lists] at h
    split at h
    · exact absurd h (by simp)
    · rename_i idl f1 h1
      split at h
      · exact absurd h (by simp)
      · rename_i cdl f2 h2
        split at h
        · exact absurd h (by simp)
        · rename_i ids1 codes1 f3 h3
          simp only [Option.some.injEq, Prod.mk.injEq] at h
          obtain ⟨hl1, hl2, hf⟩ := ih h3
          have ha := READVECTOR_idx_some h1
          have hb := READVECTOR_u8_some h2
          rw [← h.1, ← h.2.1, ← h.2.2]
          simp only [List.length_cons, lists_length]
          omega

theorem set_take_succ {α : Type} (A : List α) (i : Nat) (v : α) (h : i < A.length) :
    (A.set i v).take (i + 1) = A.take i ++ [v] := by
  induction A generalizing i with
  | nil => simp at h
  | cons a A ih =>
    cases i with
    | zero => simp
    | succ i => simp [ih i (by simpa using h)]

theorem set_window {α : Type} (A : List α) (i k : Nat) (v : α) (L : List α)
    (h : i < A.length) :
    (A.set i v).take (i + 1) ++ L ++ (A.set i v).drop (i + 1 + k)
      = A.take i ++ v :: L ++ A.drop (i + (k + 1)) := by
  rw [set_take_succ A i v h, List.drop_set_of_lt v A (by omega)]
  have : i + 1 + k = i + (k + 1) := by omega
  rw [this]
  simp

open BlockInvertedListsIOHook in
/-- The loop of `read` puts the lists it takes from the stream at the indices
`i, ..., i + k - 1` of the vectors. -/
theorem read_lists_eq (k : Nat) :
    ∀ (i : Nat) (f : List Nat) (A : List (List Int)) (B : List (List Nat)),
      i + k ≤ A.length → i + k ≤ B.length →
      read_lists k i f A B = (parse_lists k f).map (fun r =>
        (A.take i ++ r.1 ++ A.drop (i + k), B.take i ++ r.2.1 ++ B.drop (i + k), r.2.2)) := by
  induction k with
  | zero =>
    intro i f A B _ _
    simp [read_lists, parse_lists]
  | succ k ih =>
    intro i f A B hA hB
    simp only [read_lists, parse_lists]
    cases h1 : READVECTOR_idx f with
    | none => rfl
    | some r1 =>
      obtain ⟨idl, f1⟩ := r1
      simp only
      cases h2 : READVECTOR_u8 f1 with
      | none => rfl
      | some r2 =>
        obtain ⟨cdl, f2⟩ := r2
        simp only
        rw [ih (i + 1) f2 _ _ (by simp; omega) (by simp; omega)]
        cases h3 : parse_lists k f2 with
        | none => rfl
        | some r3 =>
          obtain ⟨ids, codes, f3⟩ := r3
          simp only [Option.map_some']
          rw [set_window A i k idl ids (by omega), set_window B i k cdl codes (by omega)]

open BlockInvertedListsIOHook in
/-- The loop of `write` appends the layout of the lists at the indices
`i, ..., i + k - 1`. -/
theorem write_lists_eq (il : BlockInvertedLists) (k : Nat) :
    ∀ (i : Nat) (f : List Nat), i + k ≤ il.ids.length → i + k ≤ il.codes.length →
      write_lists il k i f
        = some (f ++ lists_layout ((il.ids.drop i).take k) ((il.codes.drop i).take k)) := by
  induction k with
  | zero =>
    intro i f _ _
    simp [write_lists, lists_layout]
  | succ k ih =>
    intro i f hA hB
    have hi : i < il.ids.length := by omega
    have hc : i < il.codes.length := by omega
    simp only [write_lists]
    rw [List.getElem?_eq_getElem hi, List.getElem?_eq_getElem hc]
    simp only
    rw [ih (i + 1) _ (by omega) (by omega), List.drop_eq_getElem_cons hi,
      List.drop_eq_getElem_cons hc]
    simp [lists_layout, WRITEVECTOR_u8, WRITEVECTOR_idx, WRITE1]

open BlockInvertedListsIOHook in
/-- On a store whose vectors have `nlist` elements, `write` appends the layout
of the spec. -/
theorem write_eq (il : BlockInvertedLists) (f : List Nat)
    (hi : il.ids.length = il.nlist) (hc : il.codes.length = il.nlist) :
    write il f = some (f ++ layout il) := by
  have htag : le_bytes 4 (fourcc [105, 108, 98, 108]) = [105, 108, 98, 108] := by decide
  unfold write
  simp only
  rw [write_lists_eq il il.nlist 0 _ (by omega) (by omega)]
  have e1 : il.ids.take il.nlist = il.ids := by rw [← hi]; exact List.take_length _
  have e2 : il.codes.take il.nlist = il.codes := by rw [← hc]; exact List.take_length _
  simp only [List.drop_zero, WRITE1, htag, e1, e2]
  simp [layout, body_layout]

open BlockInvertedListsIOHook in
/-- The method `read` on the layout of a store after the tag. -/
theorem read_body_layout (il : BlockInvertedLists) (rest : List Nat)
    (h : Representable il) :
    BlockInvertedListsIOHook.read (body_layout il ++ rest)
      = some ({ il with packer := none, allocated_codes := [] }, rest) := by
  obtain ⟨h1, h2, h3, h4, hi, hc, hids, hcodes⟩ := h
  unfold BlockInvertedListsIOHook.read body_layout
  simp only [List.append_assoc]
  rw [READ1_le_bytes _ h1]
  simp only
  rw [READ1_le_bytes _ h2]
  simp only
  rw [READ1_le_bytes _ h3]
  simp only
  rw [READ1_le_bytes _ h4]
  simp only
  rw [read_lists_eq il.nlist 0 _ _ _ (by simp) (by simp)]
  have hp := parse_lists_layout il.ids il.codes rest (by omega) hids hcodes
  rw [hi] at hp
  rw [hp]
  simp

open BlockInvertedListsIOHook in
/-- What a returning call of `read` has found in the stream. -/
theorem read_some {f rest : List Nat} {il : BlockInvertedLists}
    (h : BlockInvertedListsIOHook.read f = some (il, rest)) :
    il.nlist = le_value (f.take 8) ∧ il.ids.length = il.nlist ∧
      il.codes.length = il.nlist ∧ il.packer = none ∧
      f.length = 32 + lists_length il.ids il.codes + rest.length := by
  unfold BlockInvertedListsIOHook.read at h
  split at h
  · exact absurd h (by simp)
  · rename_i nlist f1 h1
    split at h
    · exact absurd h (by simp)
    · rename_i code_size f2 h2
      split at h
      · exact absurd h (by simp)
      · rename_i n_per_block f3 h3
        split at h
        · exact absurd h (by simp)
        · rename_i block_size f4 h4
          rw [read_lists_eq nlist 0 _ _ _ (by simp) (by simp)] at h
          cases hp : parse_lists nlist f4 with
          | none => rw [hp] at h; simp at h
          | some r =>
            obtain ⟨ids, codes, f5⟩ := r
            rw [hp] at h
            simp only [Option.map_some', List.take_zero, List.nil_append, zero_add,
              List.drop_replicate, Nat.sub_self, List.replicate_zero, List.append_nil,
              Option.some.injEq, Prod.mk.injEq] at h
            obtain ⟨hl1, hl2, hlen⟩ := parse_lists_some hp
            have e1 := READ1_some h1
            have e2 := READ1_some h2
            have e3 := READ1_some h3
            have e4 := READ1_some h4
            obtain ⟨hil, hrest⟩ := h
            subst hil
            subst hrest
            refine ⟨e1.2.1, hl1, hl2, rfl, ?_⟩
            simp only
            omega

/-! ### What `read` accepts -/

theorem le_bytes_le_value (bs : List Nat) (hb : ∀ b ∈ bs, b < 256) :
    le_bytes bs.length (le_value bs) = bs ∧ le_value bs < 256 ^ bs.length := by
  induction bs with
  | nil => simp [le_bytes, le_value]
  | cons b bs ih =>
    have hb0 := hb b (List.mem_cons_self _ _)
    obtain ⟨h1, h2⟩ := ih (fun y hy => hb y (List.mem_cons_of_mem _ hy))
    simp only [List.length_cons, le_bytes, le_value]
    have e1 : (b + 256 * le_value bs) % 256 = b := by omega
    have e2 : (b + 256 * le_value bs) / 256 = le_value bs := by omega
    rw [e1, e2, h1]
    refine ⟨rfl, ?_⟩
    rw [Nat.pow_succ]
    generalize 256 ^ bs.length = X at h2 ⊢
    omega

theorem READ1_sound {f r : List Nat} {v : Nat} (hb : ∀ b ∈ f, b < 256)
    (h : READ1 8 f = some (v, r)) :
    f = le_bytes 8 v ++ r ∧ v < 2 ^ 64 ∧ ∀ b ∈ r, b < 256 := by
  obtain ⟨hlen, hv, hr⟩ := READ1_some h
  have hl : (f.take 8).length = 8 := by
    rw [List.length_take]
    omega
  obtain ⟨h1, h2⟩ := le_bytes_le_value (f.take 8) (fun b hm => hb b (List.mem_of_mem_take hm))
  rw [hl] at h1 h2
  refine ⟨?_, ?_, ?_⟩
  · rw [hv, h1, hr, List.take_append_drop]
  · rw [hv]
    exact h2
  · intro b hm
    rw [hr] at hm
    exact hb b (List.mem_of_mem_drop hm)

theorem idx_bits_idx_of_bits {v : Nat} (h : v < 2 ^ 64) :
    idx_bits (idx_of_bits v) = v ∧ -2 ^ 63 ≤ idx_of_bits v ∧ idx_of_bits v < 2 ^ 63 := by
  unfold idx_of_bits idx_bits
  split <;> omega

theorem read_idx_sound {k : Nat} {f r : List Nat} {vs : List Int}
    (hb : ∀ b ∈ f, b < 256) (h : read_idx k f = some (vs, r)) :
    f = idx_bytes vs ++ r ∧ vs.length = k ∧ (∀ z ∈ vs, -2 ^ 63 ≤ z ∧ z < 2 ^ 63) ∧
      ∀ b ∈ r, b < 256 := by
  induction k generalizing f vs r with
  | zero =>
    simp only [read_idx, Option.some.injEq, Prod.mk.injEq] at h
    rw [← h.1, ← h.2]
    exact ⟨rfl, rfl, by simp, hb⟩
  | succ k ih =>
    simp only [read_idx] at h
    split at h
    · exact absurd h (by simp)
    · rename_i v f1 h1
      split at h
      · exact absurd h (by simp)
      · rename_i ws f2 h2
        simp only [Option.some.injEq, Prod.mk.injEq] at h
        obtain ⟨e1, hv, hb1⟩ := READ1_sound hb h1
        obtain ⟨e2, hl, hrange, hb2⟩ := ih hb1 h2
        obtain ⟨g1, g2, g3⟩ := idx_bits_idx_of_bits hv
        rw [← h.1, ← h.2]
        refine ⟨?_, by simp [hl], ?_, hb2⟩
        · rw [e1, e2]
          simp [idx_bytes, g1]
        · intro z hz
          rcases List.mem_cons.mp hz with rfl | hz
          · exact ⟨g2, g3⟩
          · exact hrange z hz

theorem READVECTOR_idx_sound {f r : List Nat} {vs : List Int}
    (hb : ∀ b ∈ f, b < 256) (h : READVECTOR_idx f = some (vs, r)) :
    f = le_bytes 8 vs.length ++ idx_bytes vs ++ r ∧ vs.length < 2 ^ 64 ∧
      (∀ z ∈ vs, -2 ^ 63 ≤ z ∧ z < 2 ^ 63) ∧ ∀ b ∈ r, b < 256 := by
  unfold READVECTOR_idx at h
  split at h
  · exact absurd h (by simp)
  · rename_i size f1 h1
    obtain ⟨e1, hv, hb1⟩ := READ1_sound hb h1
    obtain ⟨e2, hl, hrange, hb2⟩ := read_idx_sound hb1 h
    refine ⟨?_, by rw [hl]; exact hv, hrange, hb2⟩
    rw [e1, e2, hl, List.append_assoc]

theorem READVECTOR_u8_sound {f r cdl : List Nat}
    (hb : ∀ b ∈ f, b < 256) (h : READVECTOR_u8 f = some (cdl, r)) :
    f = le_bytes 8 cdl.length ++ cdl ++ r ∧ cdl.length < 2 ^ 64 ∧ ∀ b ∈ r, b < 256 := by
  unfold READVECTOR_u8 at h
  split at h
  · exact absurd h (by simp)
  · rename_i size f1 h1
    split at h
    · rename_i hs
      simp only [Option.some.injEq, Prod.mk.injEq] at h
      obtain ⟨e1, hv, hb1⟩ := READ1_sound hb h1
      have hl : cdl.length = size := by
        rw [← h.1, List.length_take]
        omega
      refine ⟨?_, by rw [hl]; exact hv, ?_⟩
      · rw [e1, hl, ← h.1, ← h.2, List.append_assoc, List.take_append_drop]
      · intro b hm
        rw [← h.2] at hm
        exact hb1 b (List.mem_of_mem_drop hm)
    · exact absurd h (by simp)

open BlockInvertedListsIOHook in
theorem parse_lists_sound {k : Nat} {f r : List Nat} {ids : List (List Int)}
    {codes : List (List Nat)} (hb : ∀ b ∈ f, b < 256)
    (h : parse_lists k f = some (ids, codes, r)) :
    f = lists_layout ids codes ++ r ∧ ids.length = k ∧ codes.length = k ∧
      (∀ idl ∈ ids, idl.length < 2 ^ 64 ∧ ∀ z ∈ idl, -2 ^ 63 ≤ z ∧ z < 2 ^ 63) ∧
      (∀ cdl ∈ codes, cdl.length < 2 ^ 64) := by
  induction k generalizing f ids codes r with
  | zero =>
    simp only [parse_lists, Option.some.injEq, Prod.mk.injEq] at h
    rw [← h.1, ← h.2.1, ← h.2.2]
    simp [lists_layout]
  | succ k ih =>
    simp only [parse_lists] at h
    split at h
    · exact absurd h (by simp)
    · rename_i idl f1 h1
      split at h
      · exact absurd h (by simp)
      · rename_i cdl f2 h2
        split at h
        · exact absurd h (by simp)
        · rename_i ids1 codes1 f3 h3
          simp only [Option.some.injEq, Prod.mk.injEq] at h
          obtain ⟨e1, hl1, hr1, hb1⟩ := READVECTOR_idx_sound hb h1
          obtain ⟨e2, hl2, hb2⟩ := READVECTOR_u8_sound hb1 h2
          obtain ⟨e3, hn1, hn2, hi, hc⟩ := ih hb2 h3
          rw [← h.1, ← h.2.1, ← h.2.2]
          refine ⟨?_, by simp [hn1], by simp [hn2], ?_, ?_⟩
          · rw [e1, e2, e3]
            simp [lists_layout]
          · intro y hy
            rcases List.mem_cons.mp hy with rfl | hy
            · exact ⟨hl1, hr1⟩
            · exact hi y hy
          · intro y hy
            rcases List.mem_cons.mp hy with rfl | hy
            · exact hl2
            · exact hc y hy

open BlockInvertedListsIOHook in
/-- A returning call of `read` has found the layout of the store it returns at
the head of the stream. -/
theorem read_sound {f rest : List Nat} {il : BlockInvertedLists}
    (hb : ∀ b ∈ f, b < 256) (h : BlockInvertedListsIOHook.read f = some (il, rest)) :
    f = body_layout il ++ rest ∧ Representable il ∧ il.packer = none ∧
      il.allocated_codes = [] := by
  unfold BlockInvertedListsIOHook.read at h
  split at h
  · exact absurd h (by simp)
  · rename_i nlist f1 h1
    split at h
    · exact absurd h (by simp)
    · rename_i code_size f2 h2
      split at h
      · exact absurd h (by simp)
      · rename_i n_per_block f3 h3
        split at h
        · exact absurd h (by simp)
        · rename_i block_size f4 h4
          rw [read_lists_eq nlist 0 _ _ _ (by simp) (by simp)] at h
          cases hp : parse_lists nlist f4 with
          | none => rw [hp] at h; simp at h
          | some r =>
            obtain ⟨ids, codes, f5⟩ := r
            rw [hp] at h
            simp only [Option.map_some', List.take_zero, List.nil_append, zero_add,
              List.drop_replicate, Nat.sub_self, List.replicate_zero, List.append_nil,
              Option.some.injEq, Prod.mk.injEq] at h
            obtain ⟨e1, v1, b1⟩ := READ1_sound hb h1
            obtain ⟨e2, v2, b2⟩ := READ1_sound b1 h2
            obtain ⟨e3, v3, b3⟩ := READ1_sound b2 h3
            obtain ⟨e4, v4, b4⟩ := READ1_sound b3 h4
            obtain ⟨e5, hn1, hn2, hi, hc⟩ := parse_lists_sound b4 hp
            obtain ⟨hil, hrest⟩ := h
            subst hil
            subst hrest
            refine ⟨?_, ⟨v1, v2, v3, v4, hn1, hn2, hi, hc⟩, rfl, rfl⟩
            rw [e1, e2, e3, e4, e5]
            simp [body_layout]

/-! ### Zero padding -/

/-- A turn of the loop of `update_entries` that stays in defined behaviour
packs one slot below the size of the list. -/
theorem update_entries_step_inv {packer : Option CodePacker} {offset i : Nat}
    {ids_in : List Int} {code : List Nat} {st : Option (List Int × List Nat)}
    {a1 : List Int} {b1 : List Nat}
    (h : update_entries_step packer offset ids_in code st i = some (a1, b1)) :
    ∃ a0 b0 pk flat w, st = some (a0, b0) ∧ packer = some pk ∧ w < a0.length ∧
      a1.length = a0.length ∧ b1 = pk.pack_1 flat w b0 := by
  unfold update_entries_step at h
  split at h
  · exact absurd h (by simp)
  · rename_i a0 b0
    split at h
    · rename_i hw
      split at h
      · exact absurd h (by simp)
      · split at h
        · exact absurd h (by simp)
        · rename_i pk
          split at h
          · simp only [Option.some.injEq, Prod.mk.injEq] at h
            exact ⟨a0, b0, pk, _, _, rfl, rfl, hw, by rw [← h.1]; simp, h.2.symm⟩
          · exact absurd h (by simp)
    · exact absurd h (by simp)

/-- The loop of `update_entries` leaves the bytes of the slots at and after
the size of the list as they were. -/
theorem update_entries_fold_bytes {packer : Option CodePacker} {slot : Nat → Nat → Prop}
    (hlay : ∀ pk, packer = some pk → pk.Layout slot)
    {offset : Nat} {ids_in : List Int} {code : List Nat} (l : List Nat) :
    ∀ (st : Option (List Int × List Nat)) (a : List Int) (b : List Nat),
      l.foldl (update_entries_step packer offset ids_in code) st = some (a, b) →
      ∃ a0 b0, st = some (a0, b0) ∧ a.length = a0.length ∧ b.length = b0.length ∧
        ∀ j k, a0.length ≤ j → slot j k → b[k]? = b0[k]? := by
  induction l with
  | nil => intro st a b h; exact ⟨a, b, h, rfl, rfl, fun _ _ _ _ => rfl⟩
  | cons i l ih =>
    intro st a b h
    rw [List.foldl_cons] at h
    obtain ⟨a1, b1, h1, ha, hb, hbytes⟩ := ih _ _ _ h
    obtain ⟨a0, b0, pk, flat, w, h0, hpk, hw, ha0, hb1⟩ := update_entries_step_inv h1
    refine ⟨a0, b0, h0, ha.trans ha0, ?_, ?_⟩
    · rw [hb, hb1, pk.pack_1_size]
    · intro j k hj hs
      rw [hbytes j k (by omega) hs, hb1]
      apply (hlay pk hpk).1
      intro hws
      have := (hlay pk hpk).2 w j k hws hs
      omega

/-- What a returning call of `update_entries` has done, byte by byte. -/
theorem update_entries_ok_bytes {s s' : BlockInvertedLists} {slot : Nat → Nat → Prop}
    (hlay : ∀ pk, s.packer = some pk → pk.Layout slot)
    {list_no offset n : Nat} {ids_in : List Int} {code : List Nat}
    (h : s.update_entries list_no offset n ids_in code = .ok s' ()) :
    ∃ idl cdl idl1 cdl1, s.ids[list_no]? = some idl ∧ s.codes[list_no]? = some cdl ∧
      idl1.length = idl.length ∧ cdl1.length = cdl.length ∧
      (∀ j k, idl.length ≤ j → slot j k → cdl1[k]? = cdl[k]?) ∧
      s' = { s with ids := s.ids.set list_no idl1, codes := s.codes.set list_no cdl1 } := by
  unfold update_entries at h
  split at h
  · exact Outcome.noConfusion h
  · split at h
    · rename_i idl cdl hi hc
      split at h
      · exact Outcome.noConfusion h
      · split at h
        · exact Outcome.noConfusion h
        · rename_i idl1 cdl1 hf
          obtain ⟨a0, b0, h0, ha, hb, hbytes⟩ := update_entries_fold_bytes hlay _ _ _ _ hf
          simp only [Option.some.injEq, Prod.mk.injEq] at h0
          injection h with h1 h2
          refine ⟨idl, cdl, idl1, cdl1, hi, hc, by rw [ha, ← h0.1], by rw [hb, ← h0.2], ?_,
            h1.symm⟩
          intro j k hj hs
          rw [hbytes j k (by rw [← h0.1]; exact hj) hs, ← h0.2]
    · exact Outcome.noConfusion h

/-- The loop of the per-entry branch of `add_entries` changes no byte outside
the slots it packs. -/
theorem add_entries_loop_bytes {pk : CodePacker} {slot : Nat → Nat → Prop}
    (hlay : pk.Layout slot) (code : List Nat) (o : Nat) (buf : List Nat) (k : Nat) :
    ∀ n, (∀ i, i < n → ¬ slot (wadd i o) k) →
      (add_entries_loop pk code o n buf)[k]? = buf[k]? := by
  intro n
  induction n with
  | zero => intro _; rfl
  | succ n ih =>
    intro hk
    have hstep : add_entries_loop pk code o (n + 1) buf
        = pk.pack_1 (pk.unpack_1 code n) (wadd n o) (add_entries_loop pk code o n buf) := by
      unfold add_entries_loop
      rw [List.range_succ, List.foldl_append]
      simp only [List.foldl_cons, List.foldl_nil]
    rw [hstep, hlay.1 _ _ _ _ (hk n (by omega))]
    exact ih (fun i hi => hk i (by omega))

/-- What a returning call of `add_entries` with `n_entry ≠ 0` has done, branch
by branch. -/
theorem add_entries_ok_cases {s s' : BlockInvertedLists} {junk : Nat → Nat}
    {list_no n r : Nat} {ids_in : List Int} {code : List Nat} (hn : n ≠ 0)
    (h : s.add_entries junk list_no n ids_in code = .ok s' r) :
    ∃ idl cdl, s.ids[list_no]? = some idl ∧ s.codes[list_no]? = some cdl ∧
      idl.length + n < 2 ^ 64 ∧ n ≤ ids_in.length ∧
      ((idl.length % s.block_size = 0 ∧ ∃ L, L ≤ code.length ∧
          s' = { s with ids := s.ids.set list_no (idl ++ ids_in.take n),
                        codes := s.codes.set list_no (code.take L) }) ∨
       (idl.length % s.block_size ≠ 0 ∧ ∃ pk L, s.packer = some pk ∧
          s' = { s with ids := s.ids.set list_no (idl ++ ids_in.take n),
                        codes := s.codes.set list_no
                          (add_entries_loop pk code idl.length n (vresize cdl L junk)) })) := by
  unfold add_entries at h
  rw [if_neg hn] at h
  split at h
  · exact Outcome.noConfusion h
  · split at h
    · rename_i idl cdl hi hc
      dsimp only at h
      split at h
      · exact Outcome.noConfusion h
      · rename_i idl2 hcp
        obtain ⟨hw, hlen, rfl⟩ := add_entries_ids_copy hcp
        split at h
        · exact Outcome.noConfusion h
        · split at h
          · exact Outcome.noConfusion h
          · split at h
            · rename_i hal
              split at h
              · exact Outcome.noConfusion h
              · rename_i cdl2 hcp2
                injection h with h1 h2
                obtain ⟨e1, e2, e3⟩ := memcpy_eq_some hcp2
                rw [vresize_length] at e1
                have e0 : wmul idl.length s.code_size = 0 := by omega
                rw [e0] at e3
                rw [e3, Nat.zero_add, List.drop_of_length_le (by rw [vresize_length])] at h1
                simp only [List.take_zero, List.nil_append, List.append_nil] at h1
                exact ⟨idl, cdl, hi, hc, hw, hlen, Or.inl ⟨hal, _, e2, h1.symm⟩⟩
            · rename_i hal
              split at h
              · exact Outcome.noConfusion h
              · rename_i pk hpk
                split at h
                · injection h with h1 h2
                  exact ⟨idl, cdl, hi, hc, hw, hlen, Or.inr ⟨hal, pk, _, hpk, h1.symm⟩⟩
                · exact Outcome.noConfusion h
    · exact Outcome.noConfusion h

/-- Zero padding after the vector and the buffer of one list are replaced. -/
theorem zeroPadded_set {slot : Nat → Nat → Prop} {s : BlockInvertedLists} {list_no : Nat}
    {idl1 : List Int} {cdl1 : List Nat} (h : ∀ p, ZeroPadded slot s p)
    (h1 : ∀ j k, idl1.length ≤ j → slot j k → k < cdl1.length → cdl1[k]? = some 0) :
    ∀ p, ZeroPadded slot
      { s with ids := s.ids.set list_no idl1, codes := s.codes.set list_no cdl1 } p := by
  intro p idl cdl hi hc
  dsimp only at hi hc
  rw [List.getElem?_set] at hi hc
  by_cases hp : list_no = p
  · rw [if_pos hp] at hi hc
    split at hi
    · split at hc
      · simp only [Option.some.injEq] at hi hc
        rw [← hi, ← hc]
        exact h1
      · exact absurd hc (by simp)
    · exact absurd hi (by simp)
  · rw [if_neg hp] at hi hc
    exact h p idl cdl hi hc

/-- Zero padding is kept along the calls of `PadReachable`, and so is the
packer. -/
theorem zeroPadded_of_padReachable {slot : Nat → Nat → Prop} {s0 s : BlockInvertedLists}
    (hf : Fresh s0) (hlay : ∀ pk, s0.packer = some pk → pk.Layout slot)
    (hr : PadReachable slot s0 s) : s.packer = s0.packer ∧ ∀ p, ZeroPadded slot s p := by
  induction hr with
  | init =>
    refine ⟨rfl, ?_⟩
    intro p idl cdl _ hc j k _ _ hk
    cases hf with
    | new c nlist npb bs =>
      rw [replicate_nil_getElem? hc] at hk
      simp at hk
    | newWithPacker c nlist pk =>
      rw [replicate_nil_getElem? hc] at hk
      simp at hk
  | @update_entries s s' list_no offset n ids_in code _ hok ih =>
    obtain ⟨hp, hz⟩ := ih
    obtain ⟨idl, cdl, idl1, cdl1, hi, hc, hl1, hl2, hbytes, rfl⟩ :=
      update_entries_ok_bytes (fun pk hpk => hlay pk (by rw [← hp]; exact hpk)) hok
    refine ⟨hp, zeroPadded_set hz ?_⟩
    intro j k hj hs hk
    rw [hbytes j k (by omega) hs]
    exact hz list_no idl cdl hi hc j k (by omega) hs (by omega)
  | @resize s s' junk list_no new_size _ hsize hok ih =>
    obtain ⟨hp, hz⟩ := ih
    obtain ⟨idl, cdl, hi, hc, _, rfl⟩ := resize_ok_inv hok
    refine ⟨hp, zeroPadded_set hz ?_⟩
    intro j k hj hs hk
    rw [vresize_length] at hj
    rw [take_replicate_length] at hk
    by_cases hkc : k < cdl.length
    · rw [take_replicate_getElem?_lt _ _ _ hkc hk]
      exact hz list_no idl cdl hi hc j k (Nat.le_trans (hsize idl hi) hj) hs hkc
    · exact take_replicate_getElem?_ge _ _ _ (by omega) hk
  | @add_entries s s' junk list_no n r ids_in code _ hpad hgrow hok ih =>
    obtain ⟨hp, hz⟩ := ih
    by_cases hn : n = 0
    · subst hn
      rw [add_entries_zero] at hok
      injection hok with h1 _
      subst h1
      exact ⟨hp, hz⟩
    · obtain ⟨idl, cdl, hi, hc, hw, hle, hcase⟩ := add_entries_ok_cases hn hok
      have hlen : (idl ++ ids_in.take n).length = idl.length + n := by
        rw [List.length_append, List.length_take]
        omega
      rcases hcase with ⟨hal, L, hL, rfl⟩ | ⟨hal, pk, L, hpk, rfl⟩
      · refine ⟨hp, zeroPadded_set hz ?_⟩
        intro j k hj hs hk
        rw [hlen] at hj
        rw [List.length_take] at hk
        rw [List.getElem?_take_of_lt (by omega)]
        exact hpad idl hi hal j k hj hs (by omega)
      · have hpc : list_no < s.codes.length := (List.getElem?_eq_some.mp hc).1
        have hg := hgrow idl cdl _ hi hal hc (List.getElem?_set_self hpc)
        rw [add_entries_loop_length, vresize_length] at hg
        have hl := hlay pk (by rw [← hp]; exact hpk)
        refine ⟨hp, zeroPadded_set hz ?_⟩
        intro j k hj hs hk
        rw [hlen] at hj
        rw [add_entries_loop_length, vresize_length] at hk
        rw [add_entries_loop_bytes hl code idl.length _ k n (by
          intro i hi' hws
          rw [wadd_eq (by omega)] at hws
          have := hl.2 _ _ _ hws hs
          omega),
          vresize_getElem?_lt _ _ _ _ hk (by omega)]
        exact hz list_no idl cdl hi hc j k (by omega) hs (by omega)

/-! ### The registry of outstanding buffers -/

theorem release_codes_ok (s : BlockInvertedLists) (list_no b : Nat)
    (hlt : list_no < s.nlist) :
    s.release_codes list_no b
      = if b ∈ s.allocated_codes then
          .ok { s with allocated_codes := s.allocated_codes.filter (fun a => a ≠ b) } true
        else .ok s false := by
  unfold release_codes
  rw [if_neg (not_not.mpr hlt)]

theorem release_codes_throws_of_not_lt (s : BlockInvertedLists) (list_no b : Nat)
    (hlt : ¬ list_no < s.nlist) : s.release_codes list_no b = .throws s := by
  unfold release_codes
  rw [if_pos hlt]

theorem get_single_code_throws_of_not_lt (s : BlockInvertedLists) (addr list_no offset : Nat)
    (hlt : ¬ list_no < s.nlist) : s.get_single_code addr list_no offset = .throws s := by
  unfold get_single_code
  rw [if_pos hlt]

theorem get_single_code_throws_of_offset (s : BlockInvertedLists) (addr list_no offset : Nat)
    (idl : List Int) (cdl : List Nat) (hlt : list_no < s.nlist)
    (hi : s.ids[list_no]? = some idl) (hc : s.codes[list_no]? = some cdl)
    (ho : ¬ offset < idl.length) : s.get_single_code addr list_no offset = .throws s := by
  unfold get_single_code
  rw [if_neg (not_not.mpr hlt), hi, hc]
  dsimp only
  rw [if_pos ho]

open BlockInvertedListsIOHook in
theorem lists_length_ge (ids : List (List Int)) (codes : List (List Nat))
    (h : ids.length = codes.length) : 16 * ids.length ≤ lists_length ids codes := by
  induction ids generalizing codes with
  | nil => simp
  | cons idl ids ih =>
    cases codes with
    | nil => simp at h
    | cons cdl codes =>
      have := ih codes (by simpa using h)
      simp only [List.length_cons, lists_length]
      omega

/-! ### What a call can change -/

theorem add_entries_state {s s' : BlockInvertedLists} {junk : Nat → Nat}
    {list_no n : Nat} {ids_in : List Int} {code : List Nat}
    (h : (s.add_entries junk list_no n ids_in code).state? = some s') :
    s' = s ∨ ∃ x y, s' = { s with ids := s.ids.set list_no x,
                                  codes := s.codes.set list_no y } := by
  unfold add_entries at h
  split at h
  · (simp only [Outcome.state?, Option.some.injEq] at h; exact Or.inl h.symm)
  · split at h
    · (simp only [Outcome.state?, Option.some.injEq] at h; exact Or.inl h.symm)
    · split at h
      · dsimp only at h
        split at h
        · exact absurd h (by simp [Outcome.state?])
        · split at h
          · exact absurd h (by simp [Outcome.state?])
          · split at h
            · exact absurd h (by simp [Outcome.state?])
            · split at h
              · split at h
                · exact absurd h (by simp [Outcome.state?])
                · (simp only [Outcome.state?, Option.some.injEq] at h; exact Or.inr ⟨_, _, h.symm⟩)
              · split at h
                · (simp only [Outcome.state?, Option.some.injEq] at h; exact Or.inr ⟨_, _, h.symm⟩)
                · split at h
                  · (simp only [Outcome.state?, Option.some.injEq] at h; exact Or.inr ⟨_, _, h.symm⟩)
                  · exact absurd h (by simp [Outcome.state?])
      · exact absurd h (by simp [Outcome.state?])

theorem update_entries_state {s s' : BlockInvertedLists} {list_no offset n : Nat}
    {ids_in : List Int} {code : List Nat}
    (h : (s.update_entries list_no offset n ids_in code).state? = some s') :
    s' = s ∨ ∃ x y, s' = { s with ids := s.ids.set list_no x,
                                  codes := s.codes.set list_no y } := by
  unfold update_entries at h
  split at h
  · (simp only [Outcome.state?, Option.some.injEq] at h; exact Or.inl h.symm)
  · split at h
    · split at h
      · (simp only [Outcome.state?, Option.some.injEq] at h; exact Or.inl h.symm)
      · split at h
        · exact absurd h (by simp [Outcome.state?])
        · (simp only [Outcome.state?, Option.some.injEq] at h; exact Or.inr ⟨_, _, h.symm⟩)
    · exact absurd h (by simp [Outcome.state?])

theorem resize_state {s s' : BlockInvertedLists} {junk : Nat → Nat} {list_no new_size : Nat}
    (h : (s.resize junk list_no new_size).state? = some s') :
    s' = s ∨ ∃ x y, s' = { s with ids := s.ids.set list_no x,
                                  codes := s.codes.set list_no y } := by
  unfold resize at h
  split at h
  · dsimp only at h
    split at h
    · exact absurd h (by simp [Outcome.state?])
    · (simp only [Outcome.state?, Option.some.injEq] at h; exact Or.inr ⟨_, _, h.symm⟩)
  · exact absurd h (by simp [Outcome.state?])

theorem frame_of_set {s s' : BlockInvertedLists} {list_no q : Nat} (hq : q ≠ list_no)
    (h : s' = s ∨ ∃ x y, s' = { s with ids := s.ids.set list_no x,
                                       codes := s.codes.set list_no y }) :
    s'.ids[q]? = s.ids[q]? ∧ s'.codes[q]? = s.codes[q]? ∧ s'.nlist = s.nlist ∧
      s'.n_per_block = s.n_per_block ∧ s'.block_size = s.block_size := by
  rcases h with rfl | ⟨x, y, rfl⟩
  · exact ⟨rfl, rfl, rfl, rfl, rfl⟩
  · exact ⟨List.getElem?_set_ne (Ne.symm hq), List.getElem?_set_ne (Ne.symm hq), rfl, rfl, rfl⟩

/-- A call of `add_entries`, `update_entries` or `resize` on list `list_no`
that returns or throws leaves `ids[q]` and `codes[q]` of every list
`q ≠ list_no`, and `nlist`, `n_per_block` and `block_size`, as they were. -/
theorem frame_of_defined_call (s s' : BlockInvertedLists) (junk : Nat → Nat)
    (list_no offset n new_size q : Nat) (ids_in : List Int) (code : List Nat)
    (hq : q ≠ list_no)
    (h : (s.add_entries junk list_no n ids_in code).state? = some s' ∨
      (s.update_entries list_no offset n ids_in code).state? = some s' ∨
      (s.resize junk list_no new_size).state? = some s') :
    s'.ids[q]? = s.ids[q]? ∧ s'.codes[q]? = s.codes[q]? ∧ s'.nlist = s.nlist ∧
      s'.n_per_block = s.n_per_block ∧ s'.block_size = s.block_size := by
  rcases h with h | h | h
  · exact frame_of_set hq (add_entries_state h)
  · exact frame_of_set hq (update_entries_state h)
  · exact frame_of_set hq (resize_state h)

/-! ## The claims -/

/-- C1 (as stated) fails: the store built by `BlockInvertedLists(1, 2^64 - 1, 1)`
has `n_per_block ≥ 1`, the call `resize(0, 2)` returns, and afterwards list 0
holds 2 ids and 0 bytes, whereas `ceil(2 / n_per_block) * block_size = 1`. -/
theorem size_invariant_counterexample :
    Fresh wideStore ∧ 1 ≤ wideStore.n_per_block ∧ 0 < wideStore.nlist ∧
      wideStore.resize (fun _ => 0) 0 2 = .ok wideStoreResized () ∧
      Reachable wideStore wideStoreResized ∧ ¬ SizeInv wideStoreResized 0 :=
  have h : wideStore.resize (fun _ => 0) 0 2 = .ok wideStoreResized () := rfl
  ⟨Fresh.new _ _ _ _, by decide, by decide, h, Reachable.resize Reachable.init h,
    by decide⟩

/-- C1 (amended): in every store reached from a freshly constructed store with
`n_per_block ≥ 1` by calls of `add_entries`, `update_entries` and `resize` that
return, every list `p < nlist` whose size computation does not wrap around
`2 ^ 64` satisfies `len(codes[p]) = ceil(len(ids[p]) / n_per_block) * block_size`. -/
theorem size_invariant_reachable (s0 s : BlockInvertedLists) (p : Nat)
    (hf : Fresh s0) (hnpb : 1 ≤ s0.n_per_block) (hr : Reachable s0 s)
    (hp : p < s0.nlist) (hw : NoWrap s p) : SizeInv s p := by
  obtain ⟨⟨h1, h2, h3⟩, hn, hb, _⟩ := wrapSizeInv_reachable (wrapSizeInv_fresh hf) hr
  have hpi : p < s.ids.length := by omega
  have hpc : p < s.codes.length := by omega
  have hi : s.ids[p]? = some s.ids[p] := List.getElem?_eq_getElem hpi
  have hc : s.codes[p]? = some s.codes[p] := List.getElem?_eq_getElem hpc
  have hlen := h3 p _ _ hi hc
  unfold NoWrap at hw
  rw [hi] at hw
  unfold SizeInv
  rw [hi, hc]
  dsimp only at hw ⊢
  rw [hlen, n_block_eq (by omega) hw.1, wmul_eq hw.2]

/-- Witness for C1: `emptyStore` after one `add_entries`. -/
theorem size_invariant_reachable_witness : SizeInv oneEntryStore 0 :=
  have h : emptyStore.add_entries (fun _ => 0) 0 1 [10] [7, 0] = .ok oneEntryStore 0 := rfl
  size_invariant_reachable emptyStore oneEntryStore 0 (Fresh.new _ _ _ _) (by decide)
    (Reachable.add_entries Reachable.init h) (by decide) (by decide)

/-- C2 (as stated) fails: on the store built by `BlockInvertedLists(1, 2^64 - 1, 1)`
the call `add_entries(0, 3, ids, code)` returns and leaves 0 bytes in `codes[0]`,
whereas `ceil((0 + 3) / n_per_block) * block_size = 1`. -/
theorem add_entries_sizes_counterexample :
    wideStore.add_entries (fun _ => 0) 0 3 [1, 2, 3] [] = .ok wideStoreAdded 0 ∧
      wideStore.list_size 0 = some 0 ∧
      (wideStoreAdded.codes[0]?).map List.length = some 0 ∧
      (0 + 3 + wideStore.n_per_block - 1) / wideStore.n_per_block * wideStore.block_size
        = 1 :=
  ⟨rfl, by decide, by decide, by decide⟩

/-- C2 (amended): when `add_entries(p, n, ids_in, code)` with `n > 0` returns on
a list of previous size `o`, and the size computation for `o + n` entries does
not wrap around `2 ^ 64`, then `p < nlist`, the ids of `p` are the old ids
followed by `ids_in[0..n)`, `list_size(p) = o + n`, and `codes[p]` has
`ceil((o + n) / n_per_block) * block_size` bytes. -/
theorem add_entries_sizes (s s' : BlockInvertedLists) (junk : Nat → Nat)
    (list_no n r : Nat) (ids_in : List Int) (code : List Nat) (idl : List Int)
    (hn : 0 < n) (hids : s.ids[list_no]? = some idl)
    (hok : s.add_entries junk list_no n ids_in code = .ok s' r)
    (hw1 : idl.length + n + s.n_per_block ≤ 2 ^ 64)
    (hw2 : (idl.length + n + s.n_per_block - 1) / s.n_per_block * s.block_size < 2 ^ 64) :
    list_no < s.nlist ∧ s'.ids[list_no]? = some (idl ++ ids_in.take n) ∧
      s'.list_size list_no = some (idl.length + n) ∧
      ∃ cdl1, s'.codes[list_no]? = some cdl1 ∧
        cdl1.length
          = (idl.length + n + s.n_per_block - 1) / s.n_per_block * s.block_size := by
  obtain ⟨idl0, cdl, cdl1, hlt, hi, hc, _, hle, hnpb, _, _, hlen, rfl⟩ :=
    add_entries_ok_inv (Nat.pos_iff_ne_zero.mp hn) hok
  rw [hids] at hi
  simp only [Option.some.injEq] at hi
  subst hi
  have hpi : list_no < s.ids.length := (List.getElem?_eq_some.mp hids).1
  have hpc : list_no < s.codes.length := (List.getElem?_eq_some.mp hc).1
  refine ⟨hlt, ?_, ?_, cdl1, ?_, ?_⟩
  · simp [List.getElem?_set_self hpi]
  · simp [list_size, hlt, List.getElem?_set_self hpi, Nat.min_eq_left hle]
  · simp [List.getElem?_set_self hpc]
  · rw [hlen, n_block_eq (Nat.pos_of_ne_zero hnpb) hw1, wmul_eq hw2]

/-- Witness for C2: the first entry added to `emptyStore`. -/
theorem add_entries_sizes_witness :
    0 < emptyStore.nlist ∧ oneEntryStore.ids[0]? = some ([] ++ [10].take 1) ∧
      oneEntryStore.list_size 0 = some (0 + 1) ∧
      ∃ cdl1, oneEntryStore.codes[0]? = some cdl1 ∧
        cdl1.length = (0 + 1 + 2 - 1) / 2 * 2 :=
  add_entries_sizes emptyStore oneEntryStore (fun _ => 0) 0 1 0 [10] [7, 0] []
    (by decide) rfl rfl (by decide) (by decide)

/-- C3 (as stated) fails: on `oneEntryStore`, whose list 0 has size 1, the call
`add_entries(0, 0, ...)` returns 0. -/
theorem add_entries_zero_counterexample :
    emptyStore.add_entries (fun _ => 0) 0 1 [10] [7, 0] = .ok oneEntryStore 0 ∧
      oneEntryStore.list_size 0 = some 1 ∧
      oneEntryStore.add_entries (fun _ => 0) 0 0 [] [] = .ok oneEntryStore 0 :=
  ⟨rfl, by decide, rfl⟩

/-- C3 (amended): a call `add_entries(p, n, ...)` that returns `r` has `r` equal
to the previous size of list `p` when `n > 0`; when `n = 0` it returns `0` and
leaves the store as it was. -/
theorem add_entries_returns (s s' : BlockInvertedLists) (junk : Nat → Nat)
    (list_no n r : Nat) (ids_in : List Int) (code : List Nat)
    (hok : s.add_entries junk list_no n ids_in code = .ok s' r) :
    (0 < n → s.list_size list_no = some r) ∧ (n = 0 → r = 0 ∧ s' = s) := by
  constructor
  · intro hn
    obtain ⟨idl, _, _, hlt, hi, _, _, _, _, _, hr, _, _⟩ :=
      add_entries_ok_inv (Nat.pos_iff_ne_zero.mp hn) hok
    simp [list_size, hlt, hi, hr]
  · intro hn
    subst hn
    rw [add_entries_zero] at hok
    injection hok with h1 h2
    exact ⟨h2.symm, h1.symm⟩

/-- Witness for C3: the first entry added to `emptyStore`. -/
theorem add_entries_returns_witness :
    (0 < 1 → emptyStore.list_size 0 = some 0) ∧ (1 = 0 → 0 = 0 ∧ oneEntryStore = emptyStore) :=
  add_entries_returns emptyStore oneEntryStore (fun _ => 0) 0 1 0 [10] [7, 0] rfl

/-- C4 (the code departs from the claim): list 0 of `blockStoreFull` and of
`twoEntryStore` holds 2 entries, a multiple of `n_per_block = 2`. On
`blockStoreFull` (`block_size = 4`, so `2 % block_size ≠ 0`) `add_entries` of one
more block does not copy: it takes the per-entry branch and throws for want of a
packer, with the id already appended. On `twoEntryStore` (`block_size = 2`) it
takes the copy branch with destination index `2 * code_size` modulo `2 ^ 64`
and length 4, outside the 4 bytes of `codes[0]` and beyond the caller's block. -/
theorem add_entries_block_boundary_divergence :
    (BlockInvertedLists.new (2 ^ 64 - 1) 1 2 4).add_entries (fun _ => 0) 0 2 [10, 11]
        [1, 2, 3, 4] = .ok blockStoreFull 0 ∧
      blockStoreFull.list_size 0 = some 2 ∧ 2 % blockStoreFull.n_per_block = 0 ∧
      blockStoreFull.add_entries (fun _ => 0) 0 1 [12] [5, 6, 7, 8]
        = .throws blockStoreThrown ∧
      emptyStore.add_entries (fun _ => 0) 0 2 [10, 11] [7, 8] = .ok twoEntryStore 0 ∧
      twoEntryStore.list_size 0 = some 2 ∧ 2 % twoEntryStore.n_per_block = 0 ∧
      twoEntryStore.add_entries (fun _ => 0) 0 1 [12] [5, 6] = .undefined :=
  ⟨rfl, by decide, by decide, rfl, rfl, by decide, by decide, rfl⟩

/-- C6 (the code departs from the claim): on `oneEntryStore` (no packer, list 0
of size 1, not a multiple of `block_size = 2`) the call
`add_entries(0, 2, [11, 12], [8, 9])` throws, and at the throw list 0 already
holds the two new ids and two more bytes. -/
theorem add_entries_throw_after_mutation :
    oneEntryStore.add_entries (fun _ => 255) 0 2 [11, 12] [8, 9]
        = .throws oneEntryStoreThrown ∧
      oneEntryStore.ids = [[10]] ∧ oneEntryStoreThrown.ids = [[10, 11, 12]] ∧
      oneEntryStore.codes = [[7, 0]] ∧ oneEntryStoreThrown.codes = [[7, 0, 255, 255]] :=
  ⟨rfl, rfl, rfl, rfl, rfl⟩

/-- C7 (as stated) fails: `bigBlockPacker` satisfies the round-trip and the
slot non-interference laws; on the freshly constructed `bigPackedStore`,
`resize(0, 2)` returns and leaves 2 ids and, the byte length `2 * 2 ^ 63` being
0 in `size_t` arithmetic, no byte in list 0. Then `0 < nlist` and
`1 + 1 ≤ list_size(0)`, and `update_entries(0, 1, 1, [99], [42])` passes its
tests and packs slot 1 outside the empty `codes[0]`: no later
`get_single_code(0, 1)` can give the code `[42]` from `codes[0]`, which has no
byte (the read is outside the buffer as well). -/
theorem update_entries_effect_counterexample :
    bigBlockPacker.RoundTrip ∧ bigBlockPacker.NonInterference ∧
      Fresh bigPackedStore ∧
      bigPackedStore.resize (fun _ => 0) 0 2 = .ok bigPackedStoreTwo () ∧
      Reachable bigPackedStore bigPackedStoreTwo ∧
      bigPackedStoreTwo.packer.isSome = true ∧ 0 < bigPackedStoreTwo.nlist ∧
      bigPackedStoreTwo.list_size 0 = some 2 ∧ 1 + 1 ≤ 2 ∧
      bigPackedStoreTwo.codes[0]? = some [] ∧
      bigPackedStoreTwo.update_entries 0 1 1 [99] [42] = .undefined ∧
      bigPackedStoreTwo.get_single_code 4096 0 1 = .undefined :=
  have h : bigPackedStore.resize (fun _ => 0) 0 2 = .ok bigPackedStoreTwo () := rfl
  ⟨bigBlockPacker_roundTrip, bigBlockPacker_nonInterference, Fresh.newWithPacker _ _ _, h,
    Reachable.resize Reachable.init h, rfl, by decide, by decide, by decide, by decide,
    rfl, rfl⟩

/-- C7 (amended): on a store with a packer that satisfies the round-trip and slot
non-interference laws, for a list `p < nlist` that satisfies the size invariant
and a range `offset + n ≤ list_size(p)`, `update_entries(p, offset, n, ids_in,
code)` returns; afterwards, for every `i < n`, `ids[p][offset + i] = ids_in[i]`
and `get_single_code(p, offset + i)` returns the `i`-th flat code of `code`;
every other id of `p` and what every other slot inside `codes[p]` unpacks to
are as before; the lengths of `ids[p]` and `codes[p]` are as before. -/
theorem update_entries_effect (s : BlockInvertedLists) (pk : CodePacker) (addr : Nat)
    (list_no offset n : Nat) (ids_in : List Int) (code : List Nat)
    (idl : List Int) (cdl : List Nat)
    (hpk : s.packer = some pk) (hnv : s.n_per_block = pk.nvec)
    (hbs : s.block_size = pk.block_size)
    (hrt : pk.RoundTrip) (hni : pk.NonInterference)
    (hlt : list_no < s.nlist)
    (hi : s.ids[list_no]? = some idl) (hc : s.codes[list_no]? = some cdl)
    (hnpb : 1 ≤ s.n_per_block) (hinv : SizeInv s list_no)
    (hrange : offset + n ≤ idl.length) (hsz : idl.length < 2 ^ 64)
    (hids_in : n ≤ ids_in.length)
    (hcode : n * pk.code_size ≤ code.length) (hcsz : code.length < 2 ^ 64) :
    ∃ s' idl1 cdl1, s.update_entries list_no offset n ids_in code = .ok s' () ∧
      s'.ids[list_no]? = some idl1 ∧ s'.codes[list_no]? = some cdl1 ∧
      (∀ i, i < n → idl1[offset + i]? = ids_in[i]? ∧
        ∃ s'', s'.get_single_code addr list_no (offset + i)
          = .ok s'' (addr, (code.drop (i * pk.code_size)).take pk.code_size)) ∧
      (∀ j, (j < offset ∨ offset + n ≤ j) →
        idl1[j]? = idl[j]? ∧
          (pk.SlotIn j cdl.length → pk.unpack_1 cdl1 j = pk.unpack_1 cdl j)) ∧
      idl1.length = idl.length ∧ cdl1.length = cdl.length := by
  have hpi : list_no < s.ids.length := (List.getElem?_eq_some.mp hi).1
  have hpc : list_no < s.codes.length := (List.getElem?_eq_some.mp hc).1
  unfold SizeInv at hinv
  rw [hi, hc] at hinv
  dsimp only at hinv
  rw [hnv, hbs] at hinv
  have hslot : ∀ j, j < idl.length → pk.SlotIn j cdl.length := by
    intro j hj
    rw [hinv]
    exact slotIn_of_lt pk (by omega) hj
  obtain ⟨idl1, cdl1, hfold, hl1, hl2, hin, hout⟩ :=
    update_entries_fold hrt hni hslot hsz hcsz n hrange hids_in hcode
  have hcall : s.update_entries list_no offset n ids_in code
      = .ok { s with ids := s.ids.set list_no idl1, codes := s.codes.set list_no cdl1 } () := by
    unfold update_entries
    rw [if_neg (not_not.mpr hlt), hi, hc]
    dsimp only
    rw [if_neg (not_not.mpr (by rw [wadd_eq (by omega)]; exact hrange)), hpk, hfold]
  refine ⟨_, idl1, cdl1, hcall, List.getElem?_set_self hpi, List.getElem?_set_self hpc,
    ?_, hout, hl1, hl2⟩
  intro i hin'
  refine ⟨(hin i hin').1, ?_⟩
  have hlt2 : offset + i < idl1.length := by omega
  have hget := @get_single_code_ok
    { s with ids := s.ids.set list_no idl1, codes := s.codes.set list_no cdl1 }
    pk list_no (offset + i) idl1 cdl1 addr
    hpk hlt (List.getElem?_set_self hpi) (List.getElem?_set_self hpc) hlt2
    (by rw [hl2]; exact hslot _ (by omega))
  rw [(hin i hin').2] at hget
  exact ⟨_, hget⟩

/-- Witness for C7: entry 1 of `packedStoreThree` is replaced
by the id 99 and the code `[42]`. -/
theorem update_entries_effect_witness :
    ∃ s' idl1 cdl1, packedStoreThree.update_entries 0 1 1 [99] [42] = .ok s' () ∧
      s'.ids[0]? = some idl1 ∧ s'.codes[0]? = some cdl1 ∧
      (∀ i, i < 1 → idl1[1 + i]? = [(99 : Int)][i]? ∧
        ∃ s'', s'.get_single_code 4096 0 (1 + i)
          = .ok s'' (4096, ([42].drop (i * swapPacker.code_size)).take
              swapPacker.code_size)) ∧
      (∀ j, (j < 1 ∨ 1 + 1 ≤ j) →
        idl1[j]? = [(10 : Int), 11, 12][j]? ∧
          (swapPacker.SlotIn j [2, 1, 0, 3].length →
            swapPacker.unpack_1 cdl1 j = swapPacker.unpack_1 [2, 1, 0, 3] j)) ∧
      idl1.length = [(10 : Int), 11, 12].length ∧ cdl1.length = [2, 1, 0, 3].length :=
  update_entries_effect packedStoreThree swapPacker 4096 0 1 1 [99] [42] [10, 11, 12]
    [2, 1, 0, 3] rfl rfl rfl swapPacker_roundTrip swapPacker_nonInterference (by decide)
    rfl rfl (by decide) (by decide) (by decide) (by decide) (by decide) (by decide)
    (by decide)

/-- C8 (the code departs from the claim): on `packedStore`, whose list 0 has size
1, `update_entries(0, 2^64 - 1, 2, ...)` has `offset + n = 2^64 + 1 > 1`, but the
`size_t` sum is 1, the range check passes, and the first turn of the loop writes
`ids[0][2^64 - 1]`: the call does not throw. -/
theorem update_entries_range_check_wraps :
    packedStore.list_size 0 = some 1 ∧ 1 < (2 ^ 64 - 1) + 2 ∧
      wadd (2 ^ 64 - 1) 2 = 1 ∧
      packedStore.update_entries 0 (2 ^ 64 - 1) 2 [5, 6] [1, 2] = .undefined :=
  ⟨by decide, by decide, by decide, rfl⟩

/-- C9 (as stated) fails: on the store built by `BlockInvertedLists(1, 2^64 - 1, 1)`
the call `resize(0, 3)` returns and leaves 3 ids and 0 bytes in list 0, whereas
`ceil(3 / n_per_block) * block_size = 1` (the sum `new_size + n_per_block - 1`
wraps); on the store built by `BlockInvertedLists(1, 1, 2^63)` the call
`resize(0, 2)` returns and leaves 0 bytes, whereas
`ceil(2 / n_per_block) * block_size = 2^64` (the product wraps). -/
theorem resize_effect_counterexample :
    (wideStore.resize (fun _ => 0) 0 3 = .ok wideStoreResizedThree () ∧
      0 < wideStore.nlist ∧
      (wideStoreResizedThree.ids[0]?).map List.length = some 3 ∧
      (wideStoreResizedThree.codes[0]?).map List.length = some 0 ∧
      (3 + wideStore.n_per_block - 1) / wideStore.n_per_block * wideStore.block_size
        = 1) ∧
    (bigBlockStore.resize (fun _ => 0) 0 2 = .ok bigBlockStoreResized () ∧
      0 < bigBlockStore.nlist ∧
      (bigBlockStoreResized.codes[0]?).map List.length = some 0 ∧
      (2 + bigBlockStore.n_per_block - 1) / bigBlockStore.n_per_block
        * bigBlockStore.block_size = 2 ^ 64) :=
  ⟨⟨rfl, by decide, by decide, by decide, by decide⟩,
    ⟨rfl, by decide, by decide, by decide⟩⟩

/-- C9 (amended): on a list `p` of a store with `n_per_block ≥ 1`, with or
without packer, and for a `new_size` whose size computation does not wrap around
`2 ^ 64`, `resize(p, new_size)` returns; afterwards `ids[p]` has `new_size`
elements and keeps its first `min(old size, new_size)` ids, `codes[p]` has
`ceil(new_size / n_per_block) * block_size` bytes and keeps every byte below
the smaller of the two byte lengths, and when the buffer grew every byte from
the old byte length on is zero. -/
theorem resize_effect (s : BlockInvertedLists) (junk : Nat → Nat) (list_no new_size : Nat)
    (idl : List Int) (cdl : List Nat)
    (hi : s.ids[list_no]? = some idl) (hc : s.codes[list_no]? = some cdl)
    (hnpb : 1 ≤ s.n_per_block) (hw1 : new_size + s.n_per_block ≤ 2 ^ 64)
    (hw2 : (new_size + s.n_per_block - 1) / s.n_per_block * s.block_size < 2 ^ 64) :
    ∃ s' idl1 cdl1, s.resize junk list_no new_size = .ok s' () ∧
      s'.ids[list_no]? = some idl1 ∧ s'.codes[list_no]? = some cdl1 ∧
      idl1.length = new_size ∧
      (∀ i, i < min idl.length new_size → idl1[i]? = idl[i]?) ∧
      cdl1.length = (new_size + s.n_per_block - 1) / s.n_per_block * s.block_size ∧
      (∀ k, k < min cdl.length cdl1.length → cdl1[k]? = cdl[k]?) ∧
      (cdl.length < cdl1.length →
        ∀ k, cdl.length ≤ k → k < cdl1.length → cdl1[k]? = some 0) := by
  have hpi : list_no < s.ids.length := (List.getElem?_eq_some.mp hi).1
  have hpc : list_no < s.codes.length := (List.getElem?_eq_some.mp hc).1
  have hnb : wmul (wsub1 (wadd new_size s.n_per_block) / s.n_per_block) s.block_size
      = (new_size + s.n_per_block - 1) / s.n_per_block * s.block_size := by
    rw [n_block_eq (by omega) hw1, wmul_eq hw2]
  refine ⟨_, _, _, resize_ok junk new_size hi hc (by omega), List.getElem?_set_self hpi,
    List.getElem?_set_self hpc, ?_, ?_, ?_, ?_, ?_⟩
  · exact vresize_length _ _ _
  · intro i hlt
    exact vresize_getElem?_lt _ _ _ _ (by omega) (by omega)
  · rw [take_replicate_length, hnb]
  · intro k hk
    rw [take_replicate_length] at hk
    exact take_replicate_getElem?_lt _ _ _ (by omega) (by omega)
  · intro _ k hk hk'
    rw [take_replicate_length] at hk'
    exact take_replicate_getElem?_ge _ _ _ hk hk'

/-- Witness for C9: `oneEntryStore` resized to 3 entries. -/
theorem resize_effect_witness :
    ∃ s' idl1 cdl1, oneEntryStore.resize (fun _ => 255) 0 3 = .ok s' () ∧
      s'.ids[0]? = some idl1 ∧ s'.codes[0]? = some cdl1 ∧
      idl1.length = 3 ∧
      (∀ i, i < min [(10 : Int)].length 3 → idl1[i]? = [(10 : Int)][i]?) ∧
      cdl1.length = (3 + oneEntryStore.n_per_block - 1) / oneEntryStore.n_per_block
        * oneEntryStore.block_size ∧
      (∀ k, k < min [7, 0].length cdl1.length → cdl1[k]? = [7, 0][k]?) ∧
      ([7, 0].length < cdl1.length →
        ∀ k, [7, 0].length ≤ k → k < cdl1.length → cdl1[k]? = some 0) :=
  resize_effect oneEntryStore (fun _ => 255) 0 3 [10] [7, 0] rfl rfl (by decide)
    (by decide) (by decide)

/-- C10 (as stated) fails: list 0 of `wideStoreTwo` (`n_per_block = 2^64 - 1`,
`block_size = 1`, 2 ids, 1 byte) satisfies the size invariant, and `resize(0, 2)`
followed by `resize(0, 2)` leaves 0 bytes in `codes[0]`. -/
theorem resize_grow_shrink_counterexample :
    SizeInv wideStoreTwo 0 ∧ wideStoreTwo.list_size 0 = some 2 ∧
      wideStoreTwo.resize (fun _ => 0) 0 2 = .ok wideStoreTwoResized () ∧
      wideStoreTwoResized.resize (fun _ => 0) 0 2 = .ok wideStoreTwoResized () ∧
      (wideStoreTwo.codes[0]?).map List.length = some 1 ∧
      (wideStoreTwoResized.codes[0]?).map List.length = some 0 :=
  ⟨by decide, by decide, rfl, rfl, by decide, by decide⟩

/-- C10 (amended): for a list `p` of a store with `n_per_block ≥ 1` that
satisfies the size invariant with logical size `n`, whose size computation does
not wrap around `2 ^ 64`, and every `m ≥ n`: `resize(p, m)` and then
`resize(p, n)` both return, the byte length of `codes[p]` is again the original
one, and after `resize(p, m)` every byte at an index that was not in the buffer
before reads as zero. -/
theorem resize_grow_shrink (s : BlockInvertedLists) (junk1 junk2 : Nat → Nat)
    (list_no m : Nat) (idl : List Int) (cdl : List Nat)
    (hi : s.ids[list_no]? = some idl) (hc : s.codes[list_no]? = some cdl)
    (hnpb : 1 ≤ s.n_per_block) (hinv : SizeInv s list_no) (hw : NoWrap s list_no)
    (_hm : idl.length ≤ m) :
    ∃ s1 s2 cdl1 cdl2, s.resize junk1 list_no m = .ok s1 () ∧
      s1.resize junk2 list_no idl.length = .ok s2 () ∧
      s1.codes[list_no]? = some cdl1 ∧ s2.codes[list_no]? = some cdl2 ∧
      cdl2.length = cdl.length ∧
      (∀ k, cdl.length ≤ k → k < cdl1.length → cdl1[k]? = some 0) := by
  have hpi : list_no < s.ids.length := (List.getElem?_eq_some.mp hi).1
  have hpc : list_no < s.codes.length := (List.getElem?_eq_some.mp hc).1
  unfold SizeInv at hinv
  unfold NoWrap at hw
  rw [hi] at hw
  rw [hi, hc] at hinv
  dsimp only at hw hinv
  have hnb : wmul (wsub1 (wadd idl.length s.n_per_block) / s.n_per_block) s.block_size
      = cdl.length := by
    rw [n_block_eq (by omega) hw.1, wmul_eq hw.2, hinv]
  have h1 := resize_ok junk1 m hi hc (by omega)
  refine ⟨_, _, _, _, h1, resize_ok junk2 idl.length (List.getElem?_set_self hpi)
    (List.getElem?_set_self hpc) (by dsimp only; omega), List.getElem?_set_self hpc,
    List.getElem?_set_self (by simpa using hpc), ?_, ?_⟩
  · rw [take_replicate_length]
    exact hnb
  · intro k hk hk'
    rw [take_replicate_length] at hk'
    exact take_replicate_getElem?_ge _ _ _ hk hk'

/-- Witness for C10: `oneEntryStore` grown to 5 entries and
shrunk back to 1. -/
theorem resize_grow_shrink_witness :
    ∃ s1 s2 cdl1 cdl2, oneEntryStore.resize (fun _ => 255) 0 5 = .ok s1 () ∧
      s1.resize (fun _ => 255) 0 [(10 : Int)].length = .ok s2 () ∧
      s1.codes[0]? = some cdl1 ∧ s2.codes[0]? = some cdl2 ∧
      cdl2.length = [7, 0].length ∧
      (∀ k, [7, 0].length ≤ k → k < cdl1.length → cdl1[k]? = some 0) :=
  resize_grow_shrink oneEntryStore (fun _ => 255) (fun _ => 255) 0 5 [10] [7, 0] rfl rfl
    (by decide) (by decide) (by decide) (by decide)

/-- C11 (as stated) fails: from the freshly constructed `packedEmptyStore`,
`add_entries(0, 2, [10, 11], [7, 8])` and then `resize(0, 1)` return; list 0 then
has size 1 and `codes[0]` is still `[7, 8]`, so slot 1, at a logical position
`≥ len(ids[0])` in the last block, holds the byte 7 of the removed entry. And
`add_entries(0, 1, [10], [9, 7])` on the empty list copies the caller's block:
slot 1 holds the byte 9. And `add_entries(0, 2, [11, 12], [8, 9])` on
`packedStore` packs slots 1 and 2 into a buffer grown without zero-fill: slot 3
holds what the allocation left there (255 in this run). -/
theorem zero_padding_counterexample :
    Fresh packedEmptyStore ∧
      packedEmptyStore.add_entries (fun _ => 0) 0 2 [10, 11] [7, 8]
        = .ok packedPairStore 0 ∧
      packedPairStore.resize (fun _ => 0) 0 1 = .ok packedPairStoreShrunk () ∧
      Reachable packedEmptyStore packedPairStoreShrunk ∧
      packedPairStoreShrunk.list_size 0 = some 1 ∧
      (packedPairStoreShrunk.codes[0]?).map (fun b => swapPacker.unpack_1 b 1)
        = some [7] ∧
      packedEmptyStore.add_entries (fun _ => 0) 0 1 [10] [9, 7]
        = .ok packedStorePadded 0 ∧
      packedStorePadded.list_size 0 = some 1 ∧
      (packedStorePadded.codes[0]?).map (fun b => swapPacker.unpack_1 b 1) = some [9] ∧
      packedStore.add_entries (fun _ => 255) 0 2 [11, 12] [8, 9]
        = .ok packedStoreAddedJunk 1 ∧
      packedStoreAddedJunk.list_size 0 = some 3 ∧
      (packedStoreAddedJunk.codes[0]?).map (fun b => swapPacker.unpack_1 b 3)
        = some [255] :=
  have h1 : packedEmptyStore.add_entries (fun _ => 0) 0 2 [10, 11] [7, 8]
      = .ok packedPairStore 0 := rfl
  have h2 : packedPairStore.resize (fun _ => 0) 0 1 = .ok packedPairStoreShrunk () := rfl
  ⟨Fresh.newWithPacker _ _ _, h1, h2,
    Reachable.resize (Reachable.add_entries Reachable.init h1) h2, by decide, by decide,
    rfl, by decide, by decide, rfl, by decide, by decide⟩

/-- C11 (amended): starting from a freshly constructed store whose packer, if
any, has the slot layout `slot`, after every finite sequence of calls that
return of `update_entries`, of `resize` to a size not below the size of the
list, and of `add_entries` that on the copy branch is given blocks whose bytes
in the slots past the new end of the list are zero and on the per-entry branch
does not enlarge `codes[p]`, every byte of `codes[p]` that belongs to a slot at
a logical position `≥ len(ids[p])` is zero. -/
theorem zero_padding_kept (slot : Nat → Nat → Prop) (s0 s : BlockInvertedLists)
    (p j k : Nat) (idl : List Int) (cdl : List Nat)
    (hf : Fresh s0) (hlay : ∀ pk, s0.packer = some pk → pk.Layout slot)
    (hr : PadReachable slot s0 s)
    (hi : s.ids[p]? = some idl) (hc : s.codes[p]? = some cdl)
    (hj : idl.length ≤ j) (hs : slot j k) (hk : k < cdl.length) : cdl[k]? = some 0 :=
  (zeroPadded_of_padReachable hf hlay hr).2 p idl cdl hi hc j k hj hs hk

/-- Witness for C11: from `packedEmptyStore`, one entry appended as the block
`[0, 7]`, then replaced by `update_entries`, then `resize(0, 3)`; byte 2 of
`codes[0]` is the byte of the padding slot 3. -/
theorem zero_padding_kept_witness : [0, 42, 0, 0][2]? = some 0 :=
  have h1 : packedEmptyStore.add_entries (fun _ => 255) 0 1 [10] [0, 7]
      = .ok packedStore 0 := rfl
  have h2 : packedStore.update_entries 0 0 1 [99] [42] = .ok packedStoreUpdated () := rfl
  have h3 : packedStoreUpdated.resize (fun _ => 255) 0 3 = .ok packedStoreGrown () := rfl
  have hpad : ∀ idl, packedEmptyStore.ids[0]? = some idl →
      idl.length % packedEmptyStore.block_size = 0 →
      ∀ (j k : Nat), idl.length + 1 ≤ j → swapSlot j k → k < [0, 7].length →
        [0, 7][k]? = some 0 := by
    intro idl _ _ j k hj hs hk
    unfold swapSlot at hs
    have hk0 : k = 0 := by
      simp only [List.length_cons, List.length_nil] at hk
      omega
    rw [hk0]
    rfl
  have hgrow : ∀ idl cdl cdl1, packedEmptyStore.ids[0]? = some idl →
      idl.length % packedEmptyStore.block_size ≠ 0 →
      packedEmptyStore.codes[0]? = some cdl → packedStore.codes[0]? = some cdl1 →
      cdl1.length ≤ cdl.length := by
    intro idl cdl cdl1 hi hne _ _
    have hi0 : some ([] : List Int) = some idl := hi
    rw [← Option.some.inj hi0] at hne
    exact absurd rfl hne
  have hsize : ∀ idl, packedStoreUpdated.ids[0]? = some idl → idl.length ≤ 3 := by
    intro idl hi
    have hi0 : some [(99 : Int)] = some idl := hi
    rw [← Option.some.inj hi0]
    decide
  zero_padding_kept swapSlot packedEmptyStore packedStoreGrown 0 3 2 [99, 0, 0] [0, 42, 0, 0]
    (Fresh.newWithPacker _ _ _)
    (fun pk hpk => by
      have h0 : some swapPacker = some pk := hpk
      rw [← Option.some.inj h0]
      exact swapPacker_layout)
    (PadReachable.resize
      (PadReachable.update_entries (PadReachable.add_entries PadReachable.init hpad hgrow h1)
        h2) hsize h3)
    rfl rfl (by decide) (by unfold swapSlot; decide) (by decide)

/-- C12 (as stated) fails: `bigPackedStore` is freshly constructed with the
packer `bigBlockPacker`; `resize(0, 4)` returns and leaves 4 ids and, the byte
length `4 * 2 ^ 63` being 0 in `size_t` arithmetic, no byte in list 0. Then
`0 < nlist` and `3 < list_size(0)`, and `get_single_code(0, 3)` passes both
tests and reads slot 3 outside the empty `codes[0]`: it does not return the
content of the slot. -/
theorem get_single_code_counterexample :
    Fresh bigPackedStore ∧
      bigPackedStore.resize (fun _ => 0) 0 4 = .ok bigPackedStoreFour () ∧
      Reachable bigPackedStore bigPackedStoreFour ∧
      bigPackedStoreFour.packer.isSome = true ∧ 0 < bigPackedStoreFour.nlist ∧
      bigPackedStoreFour.list_size 0 = some 4 ∧ 3 < 4 ∧
      bigPackedStoreFour.codes[0]? = some [] ∧
      bigPackedStoreFour.get_single_code 4096 0 3 = .undefined :=
  have h : bigPackedStore.resize (fun _ => 0) 0 4 = .ok bigPackedStoreFour () := rfl
  ⟨Fresh.newWithPacker _ _ _, h, Reachable.resize Reachable.init h, rfl, by decide,
    by decide, by decide, by decide, rfl⟩

/-- C12 (amended): on a store with a packer, `get_single_code(p, offset)` with
`p < nlist`, `offset < list_size(p)` and slot `offset` inside `codes[p]` returns
a buffer of `code_size` bytes equal to `unpack_1` of slot `offset` of `codes[p]`,
adds the address of that buffer, and nothing else, to `allocated_codes`, and
leaves `ids` and `codes` as they were; the slot is inside `codes[p]` whenever
`p` satisfies the size invariant with the `n_per_block ≥ 1` and the
`block_size` of the packer, and a slot outside `codes[p]` is read outside the
buffer; with `p ≥ nlist` or `offset ≥ list_size(p)` the call throws and the
store, registry included, is as before. -/
theorem get_single_code_effect (s : BlockInvertedLists) (pk : CodePacker)
    (addr list_no offset : Nat) (hpk : s.packer = some pk) :
    (∀ (idl : List Int) (cdl : List Nat), list_no < s.nlist →
      s.ids[list_no]? = some idl → s.codes[list_no]? = some cdl → offset < idl.length →
      pk.SlotIn offset cdl.length →
      ∃ s', s.get_single_code addr list_no offset = .ok s' (addr, pk.unpack_1 cdl offset) ∧
        (pk.unpack_1 cdl offset).length = pk.code_size ∧
        (∀ a, a ∈ s'.allocated_codes ↔ a = addr ∨ a ∈ s.allocated_codes) ∧
        s'.ids = s.ids ∧ s'.codes = s.codes) ∧
    (∀ (idl : List Int) (cdl : List Nat),
      s.ids[list_no]? = some idl → s.codes[list_no]? = some cdl → offset < idl.length →
      s.n_per_block = pk.nvec → s.block_size = pk.block_size → 1 ≤ s.n_per_block →
      SizeInv s list_no → pk.SlotIn offset cdl.length) ∧
    (∀ (idl : List Int) (cdl : List Nat), list_no < s.nlist →
      s.ids[list_no]? = some idl → s.codes[list_no]? = some cdl → offset < idl.length →
      ¬ pk.SlotIn offset cdl.length →
      s.get_single_code addr list_no offset = .undefined) ∧
    (¬ list_no < s.nlist → s.get_single_code addr list_no offset = .throws s) ∧
    (∀ (idl : List Int) (cdl : List Nat), list_no < s.nlist →
      s.ids[list_no]? = some idl → s.codes[list_no]? = some cdl → ¬ offset < idl.length →
      s.get_single_code addr list_no offset = .throws s) := by
  refine ⟨?_, ?_, ?_, get_single_code_throws_of_not_lt s addr list_no offset, ?_⟩
  · intro idl cdl hlt hi hc ho hslot
    exact ⟨_, get_single_code_ok addr hpk hlt hi hc ho hslot, pk.unpack_1_size _ _,
      fun a => List.mem_insert_iff, rfl, rfl⟩
  · intro idl cdl hi hc ho hnv hbs hnpb hinv
    unfold SizeInv at hinv
    rw [hi, hc] at hinv
    dsimp only at hinv
    rw [hnv, hbs] at hinv
    rw [hinv]
    exact slotIn_of_lt pk (by omega) ho
  · intro idl cdl hlt hi hc ho hslot
    unfold get_single_code
    rw [if_neg (not_not.mpr hlt), hi, hc]
    dsimp only
    rw [if_neg (not_not.mpr ho), hpk]
    dsimp only
    rw [if_neg hslot]
  · intro idl cdl hlt hi hc ho
    exact get_single_code_throws_of_offset s addr list_no offset idl cdl hlt hi hc ho

/-- Witness for C12: slot 2 of `packedStoreThree` is extracted at address 4096. -/
theorem get_single_code_effect_witness :
    ∃ s', packedStoreThree.get_single_code 4096 0 2
        = .ok s' (4096, swapPacker.unpack_1 [2, 1, 0, 3] 2) ∧
      (swapPacker.unpack_1 [2, 1, 0, 3] 2).length = swapPacker.code_size ∧
      (∀ a, a ∈ s'.allocated_codes ↔ a = 4096 ∨ a ∈ packedStoreThree.allocated_codes) ∧
      s'.ids = packedStoreThree.ids ∧ s'.codes = packedStoreThree.codes :=
  (get_single_code_effect packedStoreThree swapPacker 4096 0 2 rfl).1 [10, 11, 12]
    [2, 1, 0, 3] (by decide) rfl rfl (by decide) (by decide)

/-- C13 (as stated) fails: on `packedStoreOut` (`nlist = 1`), where the buffer at
address 4096 is outstanding, `release_codes(1, 4096)` throws and the buffer
stays in the registry. -/
theorem release_codes_counterexample :
    packedStoreThree.get_single_code 4096 0 2 = .ok packedStoreOut (4096, [3]) ∧
      4096 ∈ packedStoreOut.allocated_codes ∧
      packedStoreOut.release_codes 1 4096 = .throws packedStoreOut :=
  ⟨rfl, by decide, rfl⟩

/-- C13 (amended): `release_codes(list_no, b)` with `list_no < nlist` returns,
for every address `b`: `delete[]` is executed exactly when `b` is outstanding;
afterwards `b` is not in the registry, the other addresses of the registry,
`ids` and `codes` are as before, a `b` that was not outstanding leaves the store
as it was, and a second `release_codes(list_no, b)` returns without `delete[]`
and without change. With `list_no ≥ nlist` the call throws and the store is as
before. -/
theorem release_codes_effect (s : BlockInvertedLists) (list_no b : Nat) :
    (list_no < s.nlist →
      ∃ s1 freed, s.release_codes list_no b = .ok s1 freed ∧
        (freed = true ↔ b ∈ s.allocated_codes) ∧ b ∉ s1.allocated_codes ∧
        (∀ a, a ≠ b → (a ∈ s1.allocated_codes ↔ a ∈ s.allocated_codes)) ∧
        (b ∉ s.allocated_codes → s1 = s) ∧ s1.ids = s.ids ∧ s1.codes = s.codes ∧
        s1.release_codes list_no b = .ok s1 false) ∧
    (¬ list_no < s.nlist → s.release_codes list_no b = .throws s) := by
  refine ⟨?_, release_codes_throws_of_not_lt s list_no b⟩
  intro hlt
  by_cases hb : b ∈ s.allocated_codes
  · have hnot : b ∉ s.allocated_codes.filter (fun a => a ≠ b) := by simp
    refine ⟨{ s with allocated_codes := s.allocated_codes.filter (fun a => a ≠ b) }, true,
      by rw [release_codes_ok s list_no b hlt, if_pos hb], by simp [hb], hnot, ?_,
      fun h => absurd hb h, rfl, rfl, ?_⟩
    · intro a ha
      simp [ha]
    · have h2 := release_codes_ok
        { s with allocated_codes := s.allocated_codes.filter (fun a => a ≠ b) } list_no b hlt
      rw [if_neg hnot] at h2
      exact h2
  · exact ⟨s, false, by rw [release_codes_ok s list_no b hlt, if_neg hb], by simp [hb], hb,
      fun a _ => Iff.rfl, fun _ => rfl, rfl, rfl,
      by rw [release_codes_ok s list_no b hlt, if_neg hb]⟩

/-- Witness for C13: the buffer at address 4096 of `packedStoreOut` is released
with list number 0. -/
theorem release_codes_effect_witness :
    ∃ s1 freed, packedStoreOut.release_codes 0 4096 = .ok s1 freed ∧
      (freed = true ↔ 4096 ∈ packedStoreOut.allocated_codes) ∧
      4096 ∉ s1.allocated_codes ∧
      (∀ a, a ≠ 4096 → (a ∈ s1.allocated_codes ↔ a ∈ packedStoreOut.allocated_codes)) ∧
      (4096 ∉ packedStoreOut.allocated_codes → s1 = packedStoreOut) ∧
      s1.ids = packedStoreOut.ids ∧ s1.codes = packedStoreOut.codes ∧
      s1.release_codes 0 4096 = .ok s1 false :=
  (release_codes_effect packedStoreOut 0 4096).1 (by decide)

/-- C14 (the code departs from the claim): `oneEntryStore` has no packer;
`get_single_code(0, 0)` and `update_entries(0, 0, 1, [99], [42])` pass their
range checks and then call through the null packer instead of throwing (the
second after `ids[0][0]` is written); `add_entries` on its per-entry branch
does throw. -/
theorem missing_packer_not_reported :
    oneEntryStore.packer = none ∧
      oneEntryStore.get_single_code 4096 0 0 = .undefined ∧
      oneEntryStore.update_entries 0 0 1 [99] [42] = .undefined ∧
      oneEntryStore.add_entries (fun _ => 0) 0 1 [11] [8, 0]
        = .throws oneEntryStoreThrownOne :=
  ⟨rfl, rfl, rfl, rfl⟩

/-- C15 (as stated) fails: `oneEntryStore` has `nlist = 1`; compiled with
`NDEBUG` the calls `list_size(1)`, `get_ids(1)` and `get_codes(1)` make no test
and index `ids` and `codes` outside their range. -/
theorem accessor_bounds_counterexample :
    oneEntryStore.nlist = 1 ∧
      oneEntryStore.list_size_asserted true 1 = .undefined ∧
      oneEntryStore.get_ids true 1 = .undefined ∧
      oneEntryStore.get_codes true 1 = .undefined :=
  ⟨rfl, by decide, by decide, by decide⟩

/-- C15 (amended): for `p < nlist`, `list_size(p)`, `get_ids(p)` and
`get_codes(p)` return `len(ids[p])`, `ids[p]` and `codes[p]` (they are `const`
and have no effect on the store); for `p ≥ nlist`, in a build without `NDEBUG`,
each stops at `assert(list_no < nlist)` before `ids` or `codes` is indexed. -/
theorem accessor_bounds (s : BlockInvertedLists) (NDEBUG : Bool) (list_no : Nat) :
    (∀ (idl : List Int) (cdl : List Nat), list_no < s.nlist →
      s.ids[list_no]? = some idl → s.codes[list_no]? = some cdl →
      s.list_size_asserted NDEBUG list_no = .value idl.length ∧
        s.list_size list_no = some idl.length ∧
        s.get_ids NDEBUG list_no = .value idl ∧ s.get_codes NDEBUG list_no = .value cdl) ∧
    (¬ list_no < s.nlist → NDEBUG = false →
      s.list_size_asserted NDEBUG list_no = .assert_failed ∧
        s.get_ids NDEBUG list_no = .assert_failed ∧
        s.get_codes NDEBUG list_no = .assert_failed) := by
  constructor
  · intro idl cdl hlt hi hc
    simp [list_size_asserted, list_size, get_ids, get_codes, asserted, hlt, hi, hc]
  · intro hlt hn
    simp [list_size_asserted, get_ids, get_codes, asserted, hlt, hn]

/-- Witness for C15: the accessors on list 0 of `oneEntryStore`. -/
theorem accessor_bounds_witness :
    oneEntryStore.list_size_asserted true 0 = .value [(10 : Int)].length ∧
      oneEntryStore.list_size 0 = some [(10 : Int)].length ∧
      oneEntryStore.get_ids true 0 = .value [10] ∧
      oneEntryStore.get_codes true 0 = .value [7, 0] :=
  (accessor_bounds oneEntryStore true 0).1 [10] [7, 0] (by decide) rfl rfl

/-- C16 (as stated) fails: `write` starts the stream with the 4-byte tag and
`read` starts with `READ1(il->nlist)`. For `zeroListStore` (`nlist = 0`) the
stream of `write` has 36 bytes; `read` takes the tag and the low half of `nlist`
as `nlist = 1818389609`, finds no list, and throws. -/
theorem serialization_round_trip_counterexample :
    BlockInvertedListsIOHook.write zeroListStore [] = some zeroListStream ∧
      zeroListStore.nlist = 0 ∧
      le_value (zeroListStream.take 8) = 1818389609 ∧
      BlockInvertedListsIOHook.read zeroListStream = none := by
  refine ⟨by decide, rfl, by decide, ?_⟩
  cases hr : BlockInvertedListsIOHook.read zeroListStream with
  | none => rfl
  | some r =>
    obtain ⟨il, rest⟩ := r
    obtain ⟨h1, h2, h3, _, h5⟩ := read_some hr
    have hv : le_value (zeroListStream.take 8) = 1818389609 := by decide
    have hl : zeroListStream.length = 36 := by decide
    have hge := lists_length_ge il.ids il.codes (by omega)
    omega

/-- C16 (amended): for every store whose values fit their C++ types and whose
`ids` and `codes` have `nlist` elements (any `nlist`, 0 included), `write`
produces a stream that starts with the 4 bytes of the tag, and `read` applied to
the stream after these 4 bytes returns a store with the same `nlist`,
`code_size`, `n_per_block` and `block_size`, the same id sequence and the same
code bytes in every partition, and nothing of the stream is left. -/
theorem serialization_round_trip (il : BlockInvertedLists)
    (h : BlockInvertedListsIOHook.Representable il) :
    ∃ out il', BlockInvertedListsIOHook.write il [] = some out ∧
      out.take 4 = [105, 108, 98, 108] ∧
      BlockInvertedListsIOHook.read (out.drop 4) = some (il', []) ∧
      il'.nlist = il.nlist ∧ il'.code_size = il.code_size ∧
      il'.n_per_block = il.n_per_block ∧ il'.block_size = il.block_size ∧
      il'.ids = il.ids ∧ il'.codes = il.codes := by
  have hw := write_eq il [] h.2.2.2.2.1 h.2.2.2.2.2.1
  have hr := read_body_layout il [] h
  rw [List.append_nil] at hr
  refine ⟨_, { il with packer := none, allocated_codes := [] }, hw, ?_, ?_,
    rfl, rfl, rfl, rfl, rfl, rfl⟩
  · simp [BlockInvertedListsIOHook.layout]
  · simpa [BlockInvertedListsIOHook.layout] using hr

/-- Witness for C16: `twoEntryStore` written and read back. -/
theorem serialization_round_trip_witness :
    ∃ out il', BlockInvertedListsIOHook.write twoEntryStore [] = some out ∧
      out.take 4 = [105, 108, 98, 108] ∧
      BlockInvertedListsIOHook.read (out.drop 4) = some (il', []) ∧
      il'.nlist = twoEntryStore.nlist ∧ il'.code_size = twoEntryStore.code_size ∧
      il'.n_per_block = twoEntryStore.n_per_block ∧
      il'.block_size = twoEntryStore.block_size ∧
      il'.ids = twoEntryStore.ids ∧ il'.codes = twoEntryStore.codes :=
  serialization_round_trip twoEntryStore (by decide)

/-- C17: on a store whose `ids` and `codes` have `nlist` elements, `write`
appends to the stream exactly: the `u32` tag `ilbl` (the bytes of its four
characters), `u64 nlist`, `u64 code_size`, `u64 n_per_block`, `u64 block_size`,
and then for each partition in increasing order a `u64` id count, the ids as
`u64`, a `u64` byte length and the code bytes. -/
theorem write_layout (il : BlockInvertedLists) (f : List Nat)
    (hi : il.ids.length = il.nlist) (hc : il.codes.length = il.nlist) :
    le_bytes 4 (fourcc [105, 108, 98, 108]) = [105, 108, 98, 108] ∧
      BlockInvertedListsIOHook.write il f
        = some (f ++ ([105, 108, 98, 108] ++ (le_bytes 8 il.nlist ++ le_bytes 8 il.code_size
            ++ le_bytes 8 il.n_per_block ++ le_bytes 8 il.block_size
            ++ BlockInvertedListsIOHook.lists_layout il.ids il.codes))) :=
  ⟨by decide, write_eq il f hi hc⟩

set_option maxRecDepth 4000 in
/-- Witness for C17: the stream of `twoEntryStore`, which is `twoEntryStream`. -/
theorem write_layout_witness :
    (le_bytes 4 (fourcc [105, 108, 98, 108]) = [105, 108, 98, 108] ∧
      BlockInvertedListsIOHook.write twoEntryStore []
        = some ([] ++ ([105, 108, 98, 108] ++ (le_bytes 8 twoEntryStore.nlist
            ++ le_bytes 8 twoEntryStore.code_size
            ++ le_bytes 8 twoEntryStore.n_per_block ++ le_bytes 8 twoEntryStore.block_size
            ++ BlockInvertedListsIOHook.lists_layout twoEntryStore.ids
                twoEntryStore.codes)))) ∧
      BlockInvertedListsIOHook.write twoEntryStore [] = some twoEntryStream :=
  ⟨write_layout twoEntryStore [] (by decide) (by decide), by decide⟩

/-- C18 (as stated) fails: the first four bytes of `zeroStream` are zero, not
the tag `ilbl`, and `read` returns a store (with `nlist = 0`): `read` does not
look for a tag. -/
theorem read_bad_tag_counterexample :
    zeroStream.take 4 ≠ [105, 108, 98, 108] ∧
      BlockInvertedListsIOHook.read zeroStream = some (zeroStreamStore, []) :=
  ⟨by decide, rfl⟩

/-- C18 (amended): `read` neither reads nor checks a tag; it parses the stream
from its first byte and accepts exactly the streams that begin with the layout
of a store after the tag: it returns the store `il` and the rest `rest` if and
only if the stream is the four `u64` fields of `il`, then for each of its
`nlist` lists the `u64` count of ids, the ids, the `u64` length of the bytes and
the bytes, followed by `rest`, with values that fit their types, no packer and
no outstanding buffer; it throws on every other stream, in particular when the
stream ends before a declared count of ids or bytes is read. -/
theorem read_accepts_layout_only (f : List Nat) (hb : ∀ b ∈ f, b < 256) :
    (∀ (il : BlockInvertedLists) (rest : List Nat),
      BlockInvertedListsIOHook.read f = some (il, rest) ↔
        (f = BlockInvertedListsIOHook.body_layout il ++ rest ∧
          BlockInvertedListsIOHook.Representable il ∧ il.packer = none ∧
          il.allocated_codes = [])) ∧
    (BlockInvertedListsIOHook.read f = none ↔
      ¬ ∃ (il : BlockInvertedLists) (rest : List Nat),
        f = BlockInvertedListsIOHook.body_layout il ++ rest ∧
          BlockInvertedListsIOHook.Representable il) := by
  constructor
  · intro il rest
    constructor
    · exact read_sound hb
    · rintro ⟨e, hrep, hp, ha⟩
      rw [e, read_body_layout il rest hrep]
      cases il
      simp only at hp ha
      subst hp
      subst ha
      rfl
  · constructor
    · rintro hnone ⟨il, rest, e, hrep⟩
      rw [e, read_body_layout il rest hrep] at hnone
      exact absurd hnone (by simp)
    · intro hno
      cases hr : BlockInvertedListsIOHook.read f with
      | none => rfl
      | some r =>
        obtain ⟨il, rest⟩ := r
        exact absurd ⟨il, rest, (read_sound hb hr).1, (read_sound hb hr).2.1⟩ hno

set_option maxRecDepth 4000 in
/-- Witness for C18: the stream of `twoEntryStore` after the tag is accepted
and gives `twoEntryStore`; `truncatedStream`, which declares 100 code bytes and
holds one, is rejected. -/
theorem read_accepts_layout_only_witness :
    BlockInvertedListsIOHook.read (twoEntryStream.drop 4) = some (twoEntryStore, []) ∧
      BlockInvertedListsIOHook.read truncatedStream = none :=
  ⟨((read_accepts_layout_only (twoEntryStream.drop 4) (by decide)).1 twoEntryStore []).mpr
    ⟨by decide, by decide, rfl, rfl⟩, rfl⟩

/-- C19 (the code departs from the claim): `twoListStoreFull` has two lists and
comes from `BlockInvertedLists(2, 2, 2)` by `add_entries(0, 2, [10, 11], [7, 8])`;
list 0 holds one full block. The call `add_entries(0, 1, [12], [5, 6, 0, 0])`
takes the copy branch (`2 % block_size = 0`) and copies 4 bytes to the index
`2 * code_size`, which is `2 ^ 64 - 2` in `size_t` arithmetic: the destination
is not in `codes[0]`, the call writes memory that does not belong to list 0 and
has no defined state afterwards. -/
theorem partition_frame_divergence :
    twoListStore.add_entries (fun _ => 0) 0 2 [10, 11] [7, 8] = .ok twoListStoreFull 0 ∧
      0 < twoListStoreFull.nlist ∧ twoListStoreFull.list_size 0 = some 2 ∧
      2 % twoListStoreFull.block_size = 0 ∧
      wmul 2 twoListStoreFull.code_size = 2 ^ 64 - 2 ∧
      memcpy [7, 8, 0, 0] (2 ^ 64 - 2) [5, 6, 0, 0] 4 = none ∧
      twoListStoreFull.add_entries (fun _ => 0) 0 1 [12] [5, 6, 0, 0] = .undefined ∧
      (twoListStoreFull.add_entries (fun _ => 0) 0 1 [12] [5, 6, 0, 0]).state? = none :=
  ⟨rfl, by decide, by decide, by decide, by decide, by decide, rfl, rfl⟩

/-- C20 (as stated) fails: on `wideStore` (`n_per_block = 2^64 - 1`,
`block_size = 1`, list 0 empty) `add_entries(0, 2, [1, 2], [5])` returns and
leaves `codes[0]` empty, whereas the first `ceil(2 / n_per_block) * block_size = 1`
bytes of the caller's buffer are `[5]`. -/
theorem bulk_load_counterexample :
    1 ≤ wideStore.n_per_block ∧ 1 ≤ wideStore.block_size ∧
      wideStore.ids[0]? = some [] ∧
      wideStore.add_entries (fun _ => 0) 0 2 [1, 2] [5] = .ok wideStoreAddedTwo 0 ∧
      wideStoreAddedTwo.codes[0]? = some [] ∧
      [5].take ((2 + wideStore.n_per_block - 1) / wideStore.n_per_block
        * wideStore.block_size) = [5] :=
  ⟨by decide, by decide, by decide, rfl, by decide, by decide⟩

/-- C20 (amended): on a store with `n_per_block ≥ 1` and `block_size ≥ 1`, with
or without packer, for an empty list `p < nlist`, `n > 0` whose size computation
does not wrap around `2 ^ 64`, and caller buffers that hold `n` ids and
`ceil(n / n_per_block) * block_size` bytes, `add_entries` returns 0, `ids[p]` is
`ids_in[0..n)` and `codes[p]` is the first `ceil(n / n_per_block) * block_size`
bytes of the caller's buffer; the packer is not used. -/
theorem bulk_load (s : BlockInvertedLists) (junk : Nat → Nat) (list_no n : Nat)
    (ids_in : List Int) (code cdl : List Nat)
    (hlt : list_no < s.nlist)
    (hi : s.ids[list_no]? = some []) (hc : s.codes[list_no]? = some cdl)
    (hnpb : 1 ≤ s.n_per_block) (hbs : 1 ≤ s.block_size) (hn : 0 < n)
    (hids : n ≤ ids_in.length)
    (hw1 : n + s.n_per_block ≤ 2 ^ 64)
    (hw2 : (n + s.n_per_block - 1) / s.n_per_block * s.block_size < 2 ^ 64)
    (hcode : (n + s.n_per_block - 1) / s.n_per_block * s.block_size ≤ code.length) :
    s.add_entries junk list_no n ids_in code = .ok { s with
        ids := s.ids.set list_no (ids_in.take n),
        codes := s.codes.set list_no
          (code.take ((n + s.n_per_block - 1) / s.n_per_block * s.block_size)) } 0 := by
  have hw : ([] : List Int).length + n < 2 ^ 64 := by simp; omega
  have hnb : wmul (wsub1 (wadd (wadd ([] : List Int).length n) s.n_per_block)
      / s.n_per_block) s.block_size
      = (n + s.n_per_block - 1) / s.n_per_block * s.block_size := by
    rw [wadd_eq hw, List.length_nil, Nat.zero_add, n_block_eq (by omega) hw1, wmul_eq hw2]
  have hoff : wmul ([] : List Int).length s.code_size = 0 := by simp [wmul]
  unfold add_entries
  rw [if_neg (by omega), if_neg (not_not.mpr hlt), hi, hc]
  dsimp only
  rw [memcpy_ids hw hids]
  dsimp only
  rw [if_neg (by omega), if_neg (by omega), if_pos (by simp), hnb, hoff]
  unfold memcpy
  rw [if_pos ⟨by rw [vresize_length]; omega, hcode⟩]
  simp only [List.take_zero, List.nil_append, Nat.zero_add, List.length_nil]
  rw [List.drop_of_length_le (by rw [vresize_length]), List.append_nil]

/-- Witness for C20: two entries loaded into the empty list 1 of
`twoListStoreFirst`. -/
theorem bulk_load_witness :
    twoListStoreFirst.add_entries (fun _ => 255) 1 2 [20, 21] [5, 6] = .ok
      { twoListStoreFirst with
        ids := twoListStoreFirst.ids.set 1 ([20, 21].take 2),
        codes := twoListStoreFirst.codes.set 1
          ([5, 6].take ((2 + twoListStoreFirst.n_per_block - 1)
            / twoListStoreFirst.n_per_block * twoListStoreFirst.block_size)) } 0 :=
  bulk_load twoListStoreFirst (fun _ => 255) 1 2 [20, 21] [5, 6] [] (by decide) rfl rfl
    (by decide) (by decide) (by decide) (by decide) (by decide) (by decide) (by decide)

end faiss
